import Mathlib

/-!
gumbleffmpeg: the stream state machine, the decoder arguments, the duration
reader and the frame emitter.

A verification development over `gumbleffmpeg/stream.go`.

The Go code runs three kinds of goroutine around one `Stream`: the caller of
`Play`/`Pause`/`Stop`, the frame emitter `process`, and the anonymous goroutine
of `Play` that reads the duration from the decoder's standard error.  The
embedding is an interleaving model: every section of code that runs under the
stream lock `s.l` (or under `durationMutex`) is one atomic step on a value of
type `Stream`, and a run of the program is a list of such steps (`Event`).
What the operating system and the decoder decide (whether a pipe or the process
can be created, whether a frame read succeeds and which bytes it returns, what
the decoder prints on standard error) is carried by the event.

File layout: the data model; the Go operations in source order; the library
routines the code calls (`float32` arithmetic, `bufio`, `regexp`,
`time.ParseDuration`); runs; then the theorems, first on the state machine,
then on the duration goroutine, then on volume scaling.
-/

namespace Gumbleffmpeg

/-! ## Data model -/

/-- State of a Stream (`type State int32`, constants `iota + 1`).  The field
`state` is unexported and only ever assigned one of the four constants. -/
inductive State where
  | StateInitial
  | StatePlaying
  | StatePaused
  | StateStopped
deriving DecidableEq, Repr

open State

/-- The `int32` value of each state constant (`StateInitial State = iota + 1`). -/
def State.toInt32 : State → Int
  | StateInitial => 1
  | StatePlaying => 2
  | StatePaused => 3
  | StateStopped => 4

/-- An `exec.Cmd` as `exec.Command(s.Command, args...)` builds it: the program
and its argument list. -/
structure Cmd where
  path : String
  args : List String
deriving DecidableEq, Repr

/-- The `Source` interface seen from the stream: the argument list returned by
`arguments()`.  The outcome of `start` is supplied by the environment
(`PlayEnv`); calls of `start` and `done` are counted in the stream. -/
structure Source where
  arguments : List String
deriving DecidableEq, Repr

/-- A Go `float32` (IEEE 754 binary32): `finite m e` is the number
`m * 2 ^ e`, and the values of the type are the two infinities, NaN, and the
finite numbers with `|m| < 2 ^ 24` and `-149 ≤ e ≤ 104` (`Float32.WellFormed`).
The sign of a zero is not kept: it changes neither a product's conversion to
an integer nor whether a product is NaN. -/
inductive Float32 where
  | finite (m : Int) (e : Int)
  | inf (negative : Bool)
  | nan
deriving DecidableEq, Repr

/-- What `process` reads from `s.client.Config`: the tick interval
(`AudioInterval`, a `time.Duration` in nanoseconds) and `AudioFrameSize()`. -/
structure Client where
  AudioInterval : Int
  AudioFrameSize : Nat
deriving DecidableEq, Repr

/-- Parts of the Go libraries and of package `gumble` that `Play` uses and that
are not in this repository's sources: `gumble.AudioChannels`,
`gumble.AudioSampleRate`, and the text
`strconv.FormatFloat(d.Seconds(), 'f', -1, 64)` of a duration `d`. -/
structure Lib where
  AudioChannels : Int
  AudioSampleRate : Int
  formatSeconds : Int → String

/-- The `Stream` struct.  Fields up to `durationLocked` are the Go fields
(`l` is implicit in the atomicity of a step; `pipe`, `errPipe` are represented
by the data the events carry; `durationLocked` is the state of
`*durationMutex`; `wg` is the counter of the `sync.WaitGroup`).  The remaining
fields are bookkeeping of what the code did: the number of live `process`
goroutines, of duration goroutines started and not yet run, of `Pause` callers
waiting in `s.pause <- struct{}{}`, the calls of `cmd.Process.Kill`,
`cmd.Wait`, `Source.start`, `Source.done`, and the frames sent to the outgoing
channel. -/
structure Stream where
  Command : String
  Volume : Float32
  Source : Option Source
  Offset : Int
  Duration : Int
  client : Client
  cmd : Option Cmd
  elapsed : Int
  state : State
  wg : Int
  durationLocked : Bool
  emitters : Nat
  readers : Nat
  pauseSenders : Nat
  kills : Nat
  reaps : Nat
  starts : Nat
  dones : Nat
  outgoing : List (List Int)
deriving DecidableEq, Repr

/-! ## Error values -/

/-- Error of `Play` on a playing stream. -/
def errAlreadyPlaying : String := "gumbleffmpeg: stream already playing"

/-- Error of `Play` on a stopped stream. -/
def errStopped : String := "gumbleffmpeg: stream has stopped"

/-- Error of `Play` without a source. -/
def errNilSource : String := "gumbleffmpeg: nil source"

/-- Error of `Pause` on a stream that is not playing. -/
def errNotPlaying : String := "gumbleffmpeg: stream is not playing"

/-- Error of `Stop` on a stream that is neither playing nor paused. -/
def errNotPlayingNorPaused : String := "gumbleffmpeg: stream is not playing nor paused"

/-! ## Machine integers -/

/-- Two's-complement wrap of an integer to `int64`. -/
def wrapInt64 (x : Int) : Int := (x + 2 ^ 63) % 2 ^ 64 - 2 ^ 63

/-- Two's-complement wrap of an integer to `int16`. -/
def wrapInt16 (x : Int) : Int := (x + 2 ^ 15) % 2 ^ 16 - 2 ^ 15

/-- Largest `int64`. -/
def maxInt64 : Int := 2 ^ 63 - 1

/-- `binary.LittleEndian.Uint16` of two bytes. -/
def leUint16 (b0 b1 : Nat) : Nat := b0 % 256 + 256 * (b1 % 256)

/-! ## `New` -/

/-- `New`: a stream for a client and a source (`none` is Go's nil interface). -/
def New (client : Client) (source : Option Source) : Stream :=
  { Command := "ffmpeg"
    Volume := .finite 8388608 (-23)
    Source := source
    Offset := 0
    Duration := 0
    client := client
    cmd := none
    elapsed := 0
    state := StateInitial
    wg := 0
    durationLocked := false
    emitters := 0
    readers := 0
    pauseSenders := 0
    kills := 0
    reaps := 0
    starts := 0
    dones := 0
    outgoing := [] }

/-! ## `Play` -/

/-- `strconv.Itoa`. -/
def Itoa (n : Int) : String := toString n

/-- The argument list `Play` builds on a fresh stream (lines 95-99): the seek
offset first when `Offset > 0`, then the source's arguments, then the output
format. -/
def playArgs (L : Lib) (offset : Int) (sourceArgs : List String) : List String :=
  let args := sourceArgs
  let args := if offset > 0 then ["-ss", L.formatSeconds offset] ++ args else args
  args ++ ["-ac", Itoa L.AudioChannels, "-ar", Itoa L.AudioSampleRate, "-f", "s16le", "-"]

/-- What the operating system and the source answer during a fresh `Play`:
the error, if any, of `cmd.StdoutPipe()`, `cmd.StderrPipe()`,
`s.Source.start(cmd)` and `cmd.Start()`. -/
structure PlayEnv where
  stdoutPipe : Option String
  stderrPipe : Option String
  sourceStart : Option String
  cmdStart : Option String
deriving DecidableEq, Repr

/-- An environment in which every step of `Play` succeeds. -/
def PlayEnv.ok : PlayEnv := ⟨none, none, none, none⟩

/-- `Stream.Play`.  Returns the error (`none` is Go's nil) and the stream
after the call.  `go s.process()` adds a live emitter; the `go func()` of line
113 adds a duration goroutine. -/
def Play (L : Lib) (env : PlayEnv) (s : Stream) : Option String × Stream :=
  match s.state with
  | StatePaused => (none, { s with state := StatePlaying, emitters := s.emitters + 1 })
  | StatePlaying => (some errAlreadyPlaying, s)
  | StateStopped => (some errStopped, s)
  | StateInitial =>
    match s.Source with
    | none => (some errNilSource, s)
    | some src =>
      let cmd : Cmd := { path := s.Command, args := playArgs L s.Offset src.arguments }
      match env.stdoutPipe with
      | some err => (some err, s)
      | none =>
        match env.stderrPipe with
        | some err => (some err, s)
        | none =>
          let s1 := { s with readers := s.readers + 1 }
          match env.sourceStart with
          | some err => (some err, { s1 with starts := s1.starts + 1 })
          | none =>
            match env.cmdStart with
            | some err =>
              (some err, { s1 with starts := s1.starts + 1, dones := s1.dones + 1 })
            | none =>
              (none, { s1 with
                starts := s1.starts + 1
                wg := s1.wg + 1
                cmd := some cmd
                state := StatePlaying
                emitters := s1.emitters + 1 })

/-- `Stream.State`. -/
def Stream.State (s : Stream) : State := s.state

/-! ## `Pause`, `cleanup`, `Stop` -/

/-- `Stream.Pause`: the section under the lock, which fixes the returned error
and the new state.  On the nil path the caller then sends on the unbuffered
channel `s.pause`; it is counted in `pauseSenders` until an emitter takes the
signal (`Event.recvPause`), and only then does the call return.  Should every
emitter end on a read error first, the count stays positive: that call never
returns. -/
def Pause (s : Stream) : Option String × Stream :=
  if s.state ≠ StatePlaying then (some errNotPlaying, s)
  else (none, { s with state := StatePaused, pauseSenders := s.pauseSenders + 1 })

/-- `Stream.cleanup`, entered with the lock held.  `none` is a Go run-time
panic: `s.cmd` nil at `s.cmd.Process.Kill()`, `s.Source` nil at
`s.Source.done()`, or a negative counter at `s.wg.Done()`.  The loop
`for len(s.pause) > 0` never runs, `s.pause` being unbuffered. -/
def cleanup (s : Stream) : Option Stream :=
  if s.state = StateStopped then some s
  else
    match s.cmd with
    | none => none
    | some _ =>
      match s.Source with
      | none => none
      | some _ =>
        if s.wg - 1 < 0 then none
        else some { s with
          kills := s.kills + 1
          reaps := s.reaps + 1
          dones := s.dones + 1
          state := StateStopped
          wg := s.wg - 1 }

/-- `Stream.Wait`: returns once the wait-group counter is zero; `none`: the
counter is positive and the call blocks. -/
def Wait (s : Stream) : Option Unit :=
  if s.wg = 0 then some () else none

/-- `Stream.Stop`.  `none`: the call does not return (a panic in `cleanup`, or
`s.Wait()` with a counter that stays positive).  `s.Wait()` and the assignment
`s.Duration = 0` come after the lock is released; no other step changes the
state of a stopped stream, so the result is the stream at the return. -/
def Stop (s : Stream) : Option (Option String × Stream) :=
  match s.state with
  | StateStopped => some (some errNotPlayingNorPaused, s)
  | StateInitial => some (some errNotPlayingNorPaused, s)
  | _ =>
    match cleanup s with
    | none => none
    | some s1 =>
      match Wait s1 with
      | none => none
      | some _ => some (none, { s1 with Duration := 0 })

/-- `Stream.Elapsed`. -/
def Elapsed (s : Stream) : Int := s.elapsed

/-- `Stream.GetElapsed`. -/
def GetElapsed (s : Stream) : Int := s.elapsed

/-- `Stream.GetDuration`: locks `durationMutex`, reads `Duration`, unlocks.
`none`: the mutex is held and the call blocks. -/
def GetDuration (s : Stream) : Option Int :=
  if s.durationLocked then none else some s.Duration

/-! ## `float32` arithmetic of the frame emitter -/

/-- Number of binary digits of `n`, by halving at most `fuel` times. -/
def bitLenAux : Nat → Nat → Nat
  | 0, _ => 0
  | fuel + 1, n => if n = 0 then 0 else bitLenAux fuel (n / 2) + 1

/-- Number of binary digits of `n` (`n` halvings always suffice). -/
def bitLen (n : Nat) : Nat := bitLenAux n n

/-- Division of `a` by `2 ^ k` rounded to the nearest integer, ties to the
even one. -/
def roundHalfEven (a k : Nat) : Nat :=
  let q := a / 2 ^ k
  let r := a % 2 ^ k
  if 2 * r > 2 ^ k ∨ (2 * r = 2 ^ k ∧ q % 2 = 1) then q + 1 else q

/-- The significand of `a * 2 ^ E` at an exponent `E + k`: exact when `k ≤ 0`,
rounded when bits are dropped. -/
def significandAt (a : Nat) (k : Int) : Nat :=
  if k ≤ 0 then a * 2 ^ (-k).toNat else roundHalfEven a k.toNat

/-- The `float32` with sign `negative`, significand `q ≤ 2 ^ 24` and exponent
`e`: a significand that rounding carried to `2 ^ 24` is renormalised, and a
result of `2 ^ 128` or more is an infinity. -/
def finish (negative : Bool) (q : Nat) (e : Int) : Float32 :=
  if q = 0 then .finite 0 0
  else
    let q1 : Nat := if q = 2 ^ 24 then 2 ^ 23 else q
    let e1 : Int := if q = 2 ^ 24 then e + 1 else e
    if e1 > 104 then .inf negative
    else .finite (if negative then -(q1 : Int) else (q1 : Int)) e1

/-- Rounding of the exact number `p * 2 ^ E` to `float32`, to nearest with
ties to even: 24 significant bits, fewer below `2 ^ -126` where the exponent
stays at `-149` (subnormal numbers). -/
def roundFloat32 (p : Int) (E : Int) : Float32 :=
  let a := p.natAbs
  let e0 : Int := max (E + (bitLen a : Int) - 24) (-149)
  finish (decide (p < 0)) (significandAt a (e0 - E)) e0

/-- The `float32` product `a * b`: NaN if a factor is NaN or the factors are
an infinity and a zero, an infinity if a factor is one, else the exact product
rounded. -/
def Float32.mul : Float32 → Float32 → Float32
  | .nan, _ => .nan
  | _, .nan => .nan
  | .inf s, .inf t => .inf (s != t)
  | .inf s, .finite m _ => if m = 0 then .nan else .inf (s != decide (m < 0))
  | .finite m _, .inf t => if m = 0 then .nan else .inf (decide (m < 0) != t)
  | .finite m1 e1, .finite m2 e2 => roundFloat32 (m1 * m2) (e1 + e2)

/-- The value `2 * v`, which binary floating point forms without rounding:
the exponent grows by one, and a number of `2 ^ 127` or more becomes an
infinity. -/
def Float32.double : Float32 → Float32
  | .finite m e =>
    if m = 0 then .finite m e
    else if e < 104 then .finite m (e + 1)
    else if 2 * m.natAbs < 2 ^ 24 then .finite (2 * m) e
    else .inf (decide (m < 0))
  | .inf s => .inf s
  | .nan => .nan

/-- Conversion `float32(x)` of an `int16`, exact (16 bits fit in 24). -/
def Float32.ofInt16 (x : Int) : Float32 := .finite x 0

/-- The integer part of `m * 2 ^ e`: the fraction is discarded (truncation
towards zero), as in Go's conversion to an integer type. -/
def truncFinite (m e : Int) : Int :=
  if 0 ≤ e then m * 2 ^ e.toNat else Int.tdiv m (2 ^ (-e).toNat)

/-- Conversion `int16(f)`.  Go fixes the result only when `f` is finite and
its integer part fits in 16 bits; otherwise the value is left to the
implementation, and the model keeps the low 16 bits of a finite integer part
and gives 0 for an infinity or NaN. -/
def Float32.toInt16 : Float32 → Int
  | .finite m e => wrapInt16 (truncFinite m e)
  | _ => 0

/-- One output sample (lines 234-235):
`int16(s.Volume * float32(int16(binary.LittleEndian.Uint16(b))))`. -/
def scaleSample (volume : Float32) (b0 b1 : Nat) : Int :=
  (Float32.mul volume (Float32.ofInt16 (wrapInt16 (leUint16 b0 b1)))).toInt16

/-- The frame built from a full `byteBuffer` (lines 232-236). -/
def scaleFrame (volume : Float32) (frameSize : Nat) (byteBuffer : List Nat) : List Int :=
  (List.range frameSize).map fun i =>
    scaleSample volume (byteBuffer.getD (i * 2) 0) (byteBuffer.getD (i * 2 + 1) 0)

/-! ## `process`, one pass of the `select` loop -/

/-- A tick on which `io.ReadFull` fills `byteBuffer` (lines 232-238): the
scaled frame goes to the outgoing channel and `elapsed` grows by the interval
(`atomic.AddInt64`, wrapping). -/
def processFrame (byteBuffer : List Nat) (s : Stream) : Stream :=
  { s with
    elapsed := wrapInt64 (s.elapsed + s.client.AudioInterval)
    outgoing := s.outgoing ++ [scaleFrame s.Volume s.client.AudioFrameSize byteBuffer] }

/-- A tick on which `io.ReadFull` fails (lines 227-231): lock, `cleanup`,
return. -/
def processReadError (s : Stream) : Option Stream :=
  match cleanup s with
  | none => none
  | some s1 => some { s1 with emitters := s1.emitters - 1 }

/-- The `case <-s.pause` (lines 224-225): the emitter takes the signal of one
waiting `Pause` call and returns. -/
def processPause (s : Stream) : Stream :=
  { s with emitters := s.emitters - 1, pauseSenders := s.pauseSenders - 1 }

/-! ## Library routines of the duration goroutine -/

/-- Line feed, the delimiter of `r.ReadString`. -/
def lineFeed : Char := Char.ofNat 10

/-- Successive results of `r.ReadString(lineFeed)` that come with a nil error:
the lines that end in a line feed, delimiter included.  `cur` is the text read
since the last delimiter.  The text after the last line feed is returned by
`ReadString` together with `io.EOF`, so the loop `for err == nil` never sees
it. -/
def readLinesAux (cur : List Char) : List Char → List (List Char)
  | [] => []
  | c :: cs =>
    if c = lineFeed then (cur ++ [c]) :: readLinesAux [] cs
    else readLinesAux (cur ++ [c]) cs

/-- The lines the loop of the duration goroutine processes. -/
def readLines (stderr : List Char) : List (List Char) := readLinesAux [] stderr

/-- Remove a literal from the front of a text, if it is there. -/
def dropLiteral : List Char → List Char → Option (List Char)
  | [], l => some l
  | _ :: _, [] => none
  | p :: ps, c :: cs => if p = c then dropLiteral ps cs else none

/-- A match of `Duration: ([0-9]+)?:([0-9]+)?:([0-9]+)?` that starts at the
front of `l`: the three groups, an absent group being the empty text.  Each
group is greedy, and backing off cannot help (a digit is not a colon), so the
match at a position is unique. -/
def matchAt (l : List Char) : Option (List Char × List Char × List Char) :=
  match dropLiteral "Duration: ".toList l with
  | none => none
  | some r =>
    let h := r.span Char.isDigit
    match h.2 with
    | [] => none
    | c :: r2 =>
      if c = ':' then
        let m := r2.span Char.isDigit
        match m.2 with
        | [] => none
        | c2 :: r4 =>
          if c2 = ':' then some (h.1, m.1, (r4.span Char.isDigit).1)
          else none
      else none

/-- Groups 1 to 3 of `re.FindStringSubmatch(line)`: the leftmost match.
`none` is the empty result (`len(matches) = 0`). -/
def FindStringSubmatch : List Char → Option (List Char × List Char × List Char)
  | [] => matchAt []
  | c :: cs =>
    match matchAt (c :: cs) with
    | some g => some g
    | none => FindStringSubmatch cs

/-- Helper `leadingInt` of package `time`: the leading decimal digits as a
`uint64`, with the rest of the text; `none` on overflow past `1 << 63`. -/
def leadingInt (x : Nat) : List Char → Option (Nat × List Char)
  | [] => some (x, [])
  | c :: cs =>
    if c.isDigit then
      if x > 2 ^ 63 / 10 then none
      else
        let x1 := x * 10 + (c.toNat - 48)
        if x1 > 2 ^ 63 then none else leadingInt x1 cs
    else some (x, c :: cs)

/-- Table `unitMap` of package `time`, in nanoseconds. -/
def unitMap (u : List Char) : Option Nat :=
  if u = "ns".toList then some 1
  else if u = "us".toList then some 1000
  else if u = [Char.ofNat 181, 's'] then some 1000
  else if u = [Char.ofNat 956, 's'] then some 1000
  else if u = "ms".toList then some 1000000
  else if u = "s".toList then some 1000000000
  else if u = "m".toList then some 60000000000
  else if u = "h".toList then some 3600000000000
  else none

/-- The loop `for s != ""` of `time.ParseDuration`, with the running total `d`
(a `uint64`).  Each pass consumes at least one character of the unit, so
`fuel = length of s` passes suffice.  A fractional part (a full stop) is not
modelled and reported as a failure; the text built from digit groups has
none. -/
def parseLoop : Nat → List Char → Nat → Option Nat
  | _, [], d => some d
  | 0, _ :: _, _ => none
  | fuel + 1, c :: cs, d =>
    if ¬ (c = '.' ∨ c.isDigit = true) then none
    else
      match leadingInt 0 (c :: cs) with
      | none => none
      | some (v, s1) =>
        match s1 with
        | [] => none
        | c1 :: _ =>
          if c1 = '.' then none
          else
            let us := s1.span fun c => !(c == '.' || c.isDigit)
            match unitMap us.1 with
            | none => none
            | some unit =>
              if v > 2 ^ 63 / unit then none
              else
                let d1 := (d + v * unit) % 2 ^ 64
                if d1 > 2 ^ 63 then none else parseLoop fuel us.2 d1

/-- Model of `time.ParseDuration`, in nanoseconds; `none` is an error. -/
def ParseDuration (orig : List Char) : Option Int :=
  let ns : Bool × List Char :=
    match orig with
    | [] => (false, [])
    | c :: r => if c = '-' then (true, r) else if c = '+' then (false, r) else (false, c :: r)
  if ns.2 = ['0'] then some 0
  else if ns.2 = [] then none
  else
    match parseLoop ns.2.length ns.2 0 with
    | none => none
    | some d =>
      if ns.1 then some (wrapInt64 (-(d : Int)))
      else if d > 2 ^ 63 - 1 then none
      else some (d : Int)

/-- Text `fmt.Sprintf("%sh%sm%ss", matches[1], matches[2], matches[3])`. -/
def formatDuration (h m sec : List Char) : List Char :=
  h ++ ['h'] ++ m ++ ['m'] ++ sec ++ ['s']

/-! ## The duration goroutine (lines 113-137) -/

/-- The loop over the lines read.  On the first line that matches: lock
`durationMutex` (with the mutex held the goroutine blocks and nothing
changes); assign the result of `time.ParseDuration` to `s.Duration` (zero on
an error); on an error return with the mutex still locked (lines 126-129),
else unlock and return. -/
def durationLines : List (List Char) → Stream → Stream
  | [], s => s
  | line :: rest, s =>
    match FindStringSubmatch line with
    | none => durationLines rest s
    | some (h, m, sec) =>
      if s.durationLocked then s
      else
        match ParseDuration (formatDuration h m sec) with
        | some d => { s with Duration := d }
        | none => { s with Duration := 0, durationLocked := true }

/-- The duration goroutine run on the text the decoder writes to standard
error. -/
def durationGoroutine (stderr : List Char) (s : Stream) : Stream :=
  durationLines (readLines stderr) s

/-! ## Runs -/

/-- Atomic steps of a program that uses one stream. -/
inductive Event where
  | play (env : PlayEnv)
  | pause
  | stop
  | frame (byteBuffer : List Nat)
  | readError
  | recvPause
  | stderr (text : List Char)
  | setVolume (v : Float32)
  | setOffset (d : Int)
  | setCommand (c : String)

/-- One step.  `none`: the program panics or the call never returns.  A step
of a goroutine that does not exist (no live emitter, no duration goroutine
started, no `Pause` waiting, a read that does not fill the buffer) leaves the
stream as it is. -/
def step (L : Lib) (ev : Event) (s : Stream) : Option Stream :=
  match ev with
  | .play env => some (Play L env s).2
  | .pause => some (Pause s).2
  | .stop => (Stop s).map Prod.snd
  | .frame byteBuffer =>
    if 0 < s.emitters ∧ byteBuffer.length = s.client.AudioFrameSize * 2 then
      some (processFrame byteBuffer s)
    else some s
  | .readError => if 0 < s.emitters then processReadError s else some s
  | .recvPause =>
    if 0 < s.emitters ∧ 0 < s.pauseSenders then some (processPause s) else some s
  | .stderr text =>
    if 0 < s.readers then some (durationGoroutine text { s with readers := s.readers - 1 })
    else some s
  | .setVolume v => some { s with Volume := v }
  | .setOffset d => some { s with Offset := d }
  | .setCommand c => some { s with Command := c }

/-- A run: the events in order, stopping at the first step without result. -/
def run (L : Lib) : List Event → Stream → Option Stream
  | [], s => some s
  | ev :: evs, s =>
    match step L ev s with
    | none => none
    | some s1 => run L evs s1

/-- Whether an event is a tick with a full read. -/
def Event.isFrame : Event → Bool
  | .frame _ => true
  | _ => false

/-- Decimal value of a text of digits. -/
def digitsValue (ds : List Char) : Nat :=
  ds.foldl (fun x c => x * 10 + (c.toNat - 48)) 0

/-- One hour, minute, second, millisecond in nanoseconds (`time.Hour`, ...). -/
def Hour : Int := 3600000000000

/-- One minute in nanoseconds (`time.Minute`). -/
def Minute : Int := 60000000000

/-- One second in nanoseconds (`time.Second`). -/
def Second : Int := 1000000000

/-- One millisecond in nanoseconds (`time.Millisecond`). -/
def Millisecond : Int := 1000000

/-- A library instance for examples: one channel, 48 kHz, and whole seconds
printed in decimal. -/
def exampleLib : Lib :=
  { AudioChannels := 1
    AudioSampleRate := 48000
    formatSeconds := fun d => toString (d / 1000000000) }

/-- A client for examples: 10 ms ticks, frames of 2 samples. -/
def exampleClient : Client := { AudioInterval := 10000000, AudioFrameSize := 2 }

/-- A source for examples. -/
def exampleSource : Source := { arguments := ["-i", "song.mp3"] }

/-! ## Predicates and example values used by the theorems -/

/-- The values of the type `float32`. -/
def Float32.WellFormed : Float32 → Prop
  | .finite m e => m.natAbs < 2 ^ 24 ∧ -149 ≤ e ∧ e ≤ 104
  | _ => True

/-- A `float32` in its unique representation: a normal number has a
significand of exactly 24 bits, a subnormal number or zero has exponent
`-149`. -/
def Float32.Canonical : Float32 → Prop
  | .finite m e =>
    (2 ^ 23 ≤ m.natAbs ∧ m.natAbs < 2 ^ 24 ∧ -149 ≤ e ∧ e ≤ 104) ∨
    (m.natAbs < 2 ^ 23 ∧ e = -149)
  | _ => True

/-- A finite number that is zero or normal (at least `2 ^ -126` in size). -/
def Float32.ZeroOrNormal : Float32 → Prop
  | .finite m _ => m = 0 ∨ 2 ^ 23 ≤ m.natAbs
  | _ => False

/-- A finite number whose integer part fits in an `int16`. -/
def Float32.FitsInt16 : Float32 → Prop
  | .finite m e => -2 ^ 15 ≤ truncFinite m e ∧ truncFinite m e ≤ 2 ^ 15 - 1
  | _ => False

/-- A finite number without fractional part. -/
def Float32.IsInteger : Float32 → Prop
  | .finite m e => 0 ≤ e ∨ m % 2 ^ (-e).toNat = 0
  | _ => False

instance (f : Float32) : Decidable f.WellFormed := by
  cases f <;> unfold Float32.WellFormed <;> infer_instance

instance (f : Float32) : Decidable f.Canonical := by
  cases f <;> unfold Float32.Canonical <;> infer_instance

instance (f : Float32) : Decidable f.ZeroOrNormal := by
  cases f <;> unfold Float32.ZeroOrNormal <;> infer_instance

instance (f : Float32) : Decidable f.FitsInt16 := by
  cases f <;> unfold Float32.FitsInt16 <;> infer_instance

instance (f : Float32) : Decidable f.IsInteger := by
  cases f <;> unfold Float32.IsInteger <;> infer_instance

/-- The volume 0.5. -/
def volumeHalf : Float32 := .finite 8388608 (-24)

/-- The volume 1.5. -/
def volumeOneAndHalf : Float32 := .finite 12582912 (-23)


/-- What holds of every stream a program can reach from `New`: the
wait-group counter is 1 exactly while the stream plays or is paused; a stream
that has left the initial state has its command and its source; before the
first successful `Play` no emitter lives and no `Pause` waits; and while the
stream plays (is paused) there are more (at least as many) live emitters than
`Pause` calls waiting to hand over their signal. -/
def Inv (s : Stream) : Prop :=
  (s.state = StateInitial → s.wg = 0 ∧ s.emitters = 0 ∧ s.pauseSenders = 0) ∧
  (s.state = StatePlaying ∨ s.state = StatePaused →
    s.wg = 1 ∧ s.cmd.isSome = true ∧ s.Source.isSome = true) ∧
  (s.state = StateStopped → s.wg = 0) ∧
  (s.state = StatePlaying → s.pauseSenders + 1 ≤ s.emitters) ∧
  (s.state = StatePaused → s.pauseSenders ≤ s.emitters)

/-- A stream in state Stopped, as `Stop` leaves it after a successful `Play`. -/
def stoppedStream : Stream :=
  { New exampleClient (some exampleSource) with
    cmd := some { path := "ffmpeg", args := playArgs exampleLib 0 exampleSource.arguments }
    state := StateStopped
    readers := 1
    kills := 1
    reaps := 1
    starts := 1
    dones := 1
    emitters := 1 }

/-- A stream in state Playing, as a successful first `Play` leaves it. -/
def playingStream : Stream :=
  { New exampleClient (some exampleSource) with
    cmd := some { path := "ffmpeg", args := playArgs exampleLib 0 exampleSource.arguments }
    state := StatePlaying
    wg := 1
    readers := 1
    starts := 1
    emitters := 1 }

/-- Text made of decimal digits only. -/
def allDigits (ds : List Char) : Prop := ∀ c ∈ ds, c.isDigit = true

/-- Text that is empty or starts with a character that is no digit. -/
def noDigitAhead (rest : List Char) : Prop := ∀ c ∈ rest.head?, c.isDigit = false

/-- Decoder output whose only line announces one minute and thirty seconds. -/
def announcement90 : List Char := "Duration: 00:01:30".toList ++ [lineFeed]

/-- Decoder output whose announcement has an empty hours field. -/
def announcementNoHours : List Char := "Duration: :01:30".toList ++ [lineFeed]

/-- Decoder output whose announcement has three empty fields. -/
def announcementEmpty : List Char := "Duration: ::".toList ++ [lineFeed]

/-! ## The state machine: basic facts -/

theorem cleanup_of_stopped (s : Stream) (h : s.state = StateStopped) : cleanup s = some s := by
  simp [cleanup, h]

theorem durationLines_state (ls : List (List Char)) (s : Stream) :
    (durationLines ls s).state = s.state := by
  induction ls with
  | nil => rfl
  | cons l ls ih =>
    simp only [durationLines]
    split
    · exact ih
    · split
      · rfl
      · split <;> rfl

theorem step_of_stopped (L : Lib) (ev : Event) (s : Stream) (h : s.state = StateStopped) :
    ∃ s', step L ev s = some s' ∧ s'.state = StateStopped := by
  cases ev with
  | play env => simp [step, Play, h]
  | pause => simp [step, Pause, h]
  | stop => simp [step, Stop, h]
  | frame b =>
    simp only [step]
    split
    · exact ⟨_, rfl, h⟩
    · exact ⟨_, rfl, h⟩
  | readError =>
    simp only [step, processReadError, cleanup_of_stopped s h]
    split
    · exact ⟨_, rfl, h⟩
    · exact ⟨_, rfl, h⟩
  | recvPause =>
    simp only [step]
    split
    · exact ⟨_, rfl, h⟩
    · exact ⟨_, rfl, h⟩
  | stderr t =>
    simp only [step]
    split
    · exact ⟨_, rfl, by simp [durationGoroutine, durationLines_state, h]⟩
    · exact ⟨_, rfl, h⟩
  | setVolume v => exact ⟨_, rfl, h⟩
  | setOffset d => exact ⟨_, rfl, h⟩
  | setCommand c => exact ⟨_, rfl, h⟩

theorem run_of_stopped (L : Lib) (evs : List Event) (s : Stream) (h : s.state = StateStopped) :
    ∃ s', run L evs s = some s' ∧ s'.state = StateStopped := by
  induction evs generalizing s with
  | nil => exact ⟨s, rfl, h⟩
  | cons ev evs ih =>
    obtain ⟨s1, h1, hs1⟩ := step_of_stopped L ev s h
    obtain ⟨s2, h2, hs2⟩ := ih s1 hs1
    exact ⟨s2, by simp [run, h1, h2], hs2⟩

theorem inv_New (c : Client) (src : Option Source) : Inv (New c src) := by
  simp [Inv, New]

theorem durationLines_frame (ls : List (List Char)) (s : Stream) :
    (durationLines ls s).wg = s.wg ∧ (durationLines ls s).emitters = s.emitters ∧
    (durationLines ls s).cmd = s.cmd ∧ (durationLines ls s).Source = s.Source ∧
    (durationLines ls s).elapsed = s.elapsed ∧ (durationLines ls s).client = s.client ∧
    (durationLines ls s).pauseSenders = s.pauseSenders := by
  induction ls with
  | nil => simp [durationLines]
  | cons l ls ih =>
    simp only [durationLines]
    split
    · exact ih
    · split
      · simp
      · split <;> simp

theorem inv_cleanup (s : Stream) (h : Inv s) (hs : s.state ≠ StateInitial) :
    ∃ s1, cleanup s = some s1 ∧ s1.state = StateStopped ∧ s1.wg = 0 ∧
      s1.emitters = s.emitters ∧ s1.elapsed = s.elapsed ∧ s1.client = s.client ∧
      s1.cmd = s.cmd := by
  obtain ⟨_, h2, h3, _⟩ := h
  rcases hst : s.state with _ | _ | _ | _
  · exact absurd hst hs
  · obtain ⟨hw, hc, hsrc⟩ := h2 (Or.inl hst)
    obtain ⟨c, hc⟩ := Option.isSome_iff_exists.mp hc
    obtain ⟨src, hsrc⟩ := Option.isSome_iff_exists.mp hsrc
    simp [cleanup, hst, hc, hsrc, hw]
  · obtain ⟨hw, hc, hsrc⟩ := h2 (Or.inr hst)
    obtain ⟨c, hc⟩ := Option.isSome_iff_exists.mp hc
    obtain ⟨src, hsrc⟩ := Option.isSome_iff_exists.mp hsrc
    simp [cleanup, hst, hc, hsrc, hw]
  · exact ⟨s, cleanup_of_stopped s hst, hst, h3 hst, rfl, rfl, rfl, rfl⟩

theorem inv_of_stopped (s : Stream) (hs : s.state = StateStopped) (hw : s.wg = 0) : Inv s := by
  simp [Inv, hs, hw]

theorem inv_step (L : Lib) (ev : Event) (s : Stream) (h : Inv s) :
    ∃ s', step L ev s = some s' ∧ Inv s' := by
  cases ev with
  | play env =>
    refine ⟨_, rfl, ?_⟩
    obtain ⟨h1, h2, h3, h4, h5⟩ := h
    rcases hst : s.state with _ | _ | _ | _
    · simp only [Play, hst]
      obtain ⟨hw, he, hp⟩ := h1 hst
      split
      · simp [Inv, hst, hw, he, hp]
      · split
        · simp [Inv, hst, hw, he, hp]
        · split
          · simp [Inv, hst, hw, he, hp]
          · split
            · simp [Inv, hst, hw, he, hp]
            · split
              · simp [Inv, hst, hw, he, hp]
              · simp [Inv, hw, hp, *]
    · have := h2 (Or.inl hst)
      have := h4 hst
      simp [Play, hst, Inv, *]
    · have := h2 (Or.inr hst)
      have := h5 hst
      simp [Play, hst, Inv, *]
    · simpa [Play, hst, Inv] using h3 hst
  | pause =>
    refine ⟨_, rfl, ?_⟩
    obtain ⟨h1, h2, h3, h4, h5⟩ := h
    rcases hst : s.state with _ | _ | _ | _
    · simpa [Pause, hst, Inv] using h1 hst
    · have := h2 (Or.inl hst)
      have := h4 hst
      simp [Pause, hst, Inv, *]
    · have := h2 (Or.inr hst)
      have := h5 hst
      simp [Pause, hst, Inv, *]
    · simpa [Pause, hst, Inv] using h3 hst
  | stop =>
    rcases hst : s.state with _ | _ | _ | _
    · exact ⟨s, by simp [step, Stop, hst], h⟩
    · obtain ⟨s1, hc, hs1, hw1, _⟩ := inv_cleanup s h (by simp [hst])
      exact ⟨{ s1 with Duration := 0 }, by simp [step, Stop, Wait, hst, hc, hw1],
        inv_of_stopped _ hs1 hw1⟩
    · obtain ⟨s1, hc, hs1, hw1, _⟩ := inv_cleanup s h (by simp [hst])
      exact ⟨{ s1 with Duration := 0 }, by simp [step, Stop, Wait, hst, hc, hw1],
        inv_of_stopped _ hs1 hw1⟩
    · exact ⟨s, by simp [step, Stop, hst], h⟩
  | frame b =>
    simp only [step]
    split
    · exact ⟨_, rfl, by simpa [Inv, processFrame] using h⟩
    · exact ⟨_, rfl, h⟩
  | readError =>
    simp only [step]
    split
    · rename_i he
      have hne : s.state ≠ StateInitial := by
        intro hst
        have := (h.1 hst).2.1
        omega
      obtain ⟨s1, hc, hs1, hw1, _⟩ := inv_cleanup s h hne
      exact ⟨{ s1 with emitters := s1.emitters - 1 }, by simp [processReadError, hc],
        inv_of_stopped _ hs1 hw1⟩
    · exact ⟨_, rfl, h⟩
  | recvPause =>
    simp only [step]
    split
    · rename_i he
      refine ⟨_, rfl, ?_⟩
      obtain ⟨h1, h2, h3, h4, h5⟩ := h
      refine ⟨fun hst => ?_, h2, h3, fun hst => ?_, fun hst => ?_⟩
      · have := (h1 hst).2.1
        omega
      · have := h4 hst
        simp only [processPause]
        omega
      · have := h5 hst
        simp only [processPause]
        omega
    · exact ⟨_, rfl, h⟩
  | stderr t =>
    simp only [step]
    split
    · refine ⟨_, rfl, ?_⟩
      obtain ⟨hw, he, hc, hsrc, _, _, hp⟩ :=
        durationLines_frame (readLines t) { s with readers := s.readers - 1 }
      simpa [Inv, durationGoroutine, durationLines_state, hw, he, hc, hsrc, hp] using h
    · exact ⟨_, rfl, h⟩
  | setVolume v => exact ⟨_, rfl, h⟩
  | setOffset d => exact ⟨_, rfl, h⟩
  | setCommand c => exact ⟨_, rfl, h⟩

theorem inv_run (L : Lib) (evs : List Event) (s : Stream) (h : Inv s) :
    ∃ s', run L evs s = some s' ∧ Inv s' := by
  induction evs generalizing s with
  | nil => exact ⟨s, rfl, h⟩
  | cons ev evs ih =>
    obtain ⟨s1, h1, hs1⟩ := inv_step L ev s h
    obtain ⟨s2, h2, hs2⟩ := ih s1 hs1
    exact ⟨s2, by simp [run, h1, h2], hs2⟩

theorem inv_of_run (L : Lib) (evs : List Event) (s s' : Stream) (h : Inv s)
    (hr : run L evs s = some s') : Inv s' := by
  obtain ⟨s2, h2, hs2⟩ := inv_run L evs s h
  rw [h2] at hr
  cases hr
  exact hs2

theorem cleanup_some_state (s s1 : Stream) (h : cleanup s = some s1) :
    s1.state = StateStopped ∧ s1.elapsed = s.elapsed ∧ s1.cmd = s.cmd ∧
      s1.client = s.client := by
  unfold cleanup at h
  by_cases hst : s.state = StateStopped
  · simp only [hst, if_true, Option.some.injEq] at h
    rw [← h]; exact ⟨hst, rfl, rfl, rfl⟩
  · simp only [hst, if_false] at h
    rcases hc : s.cmd with _ | c
    · simp [hc] at h
    · rcases hsrc : s.Source with _ | src
      · simp [hc, hsrc] at h
      · simp only [hc, hsrc] at h
        by_cases hw : s.wg - 1 < 0
        · simp [hw] at h
        · simp only [hw, if_false, Option.some.injEq] at h
          rw [← h]; exact ⟨rfl, rfl, rfl, rfl⟩

theorem cleanup_durationLocked (s s1 : Stream) (h : cleanup s = some s1) :
    s1.durationLocked = s.durationLocked := by
  unfold cleanup at h
  by_cases hst : s.state = StateStopped
  · simp only [hst, if_true, Option.some.injEq] at h
    rw [← h]
  · simp only [hst, if_false] at h
    rcases hc : s.cmd with _ | c
    · simp [hc] at h
    · rcases hsrc : s.Source with _ | src
      · simp [hc, hsrc] at h
      · simp only [hc, hsrc] at h
        by_cases hw : s.wg - 1 < 0
        · simp [hw] at h
        · simp only [hw, if_false, Option.some.injEq] at h
          rw [← h]

theorem Stop_some (s s1 : Stream) (e : Option String) (h : Stop s = some (e, s1)) :
    (e = some errNotPlayingNorPaused ∧ s1 = s ∧
      (s.state = StateInitial ∨ s.state = StateStopped)) ∨
    (e = none ∧ (s.state = StatePlaying ∨ s.state = StatePaused) ∧
      ∃ s2, cleanup s = some s2 ∧ s2.wg = 0 ∧ s1 = { s2 with Duration := 0 }) := by
  rcases hst : s.state with _ | _ | _ | _
  · simp only [Stop, hst, Option.some.injEq, Prod.mk.injEq] at h
    exact Or.inl ⟨h.1.symm, h.2.symm, Or.inl rfl⟩
  · right
    simp only [Stop, hst] at h
    rcases hc : cleanup s with _ | s2
    · simp [hc] at h
    · simp only [hc] at h
      by_cases hw : s2.wg = 0
      · simp only [Wait, if_pos hw, Option.some.injEq, Prod.mk.injEq] at h
        exact ⟨h.1.symm, Or.inl rfl, s2, rfl, hw, h.2.symm⟩
      · simp [Wait, hw] at h
  · right
    simp only [Stop, hst] at h
    rcases hc : cleanup s with _ | s2
    · simp [hc] at h
    · simp only [hc] at h
      by_cases hw : s2.wg = 0
      · simp only [Wait, if_pos hw, Option.some.injEq, Prod.mk.injEq] at h
        exact ⟨h.1.symm, Or.inr rfl, s2, rfl, hw, h.2.symm⟩
      · simp [Wait, hw] at h
  · simp only [Stop, hst, Option.some.injEq, Prod.mk.injEq] at h
    exact Or.inl ⟨h.1.symm, h.2.symm, Or.inr rfl⟩

theorem Stop_nil_state (s0 s : Stream) (h : Stop s0 = some (none, s)) :
    s.state = StateStopped := by
  rcases Stop_some s0 s none h with ⟨he, _⟩ | ⟨_, _, s2, hc, _, hs⟩
  · simp at he
  · rw [hs]
    exact (cleanup_some_state s0 s2 hc).1

/-- C1. Stopped is absorbing: from a stream whose state is StateStopped (in
particular the stream a successful `Stop` returns), every sequence of Play,
Pause, Stop calls and emitter and reader steps runs to a stream that is still
StateStopped, hence never StatePlaying, and on which every `Play` returns the
error "stream has stopped" and changes nothing. -/
theorem stopped_is_absorbing (L : Lib) (evs : List Event) (s : Stream)
    (h : s.state = StateStopped ∨ ∃ s0, Stop s0 = some (none, s)) :
    ∃ s', run L evs s = some s' ∧ s'.state = StateStopped ∧ s'.state ≠ StatePlaying ∧
      ∀ env, Play L env s' = (some errStopped, s') := by
  have hst : s.state = StateStopped := by
    rcases h with h | ⟨s0, h⟩
    · exact h
    · exact Stop_nil_state s0 s h
  obtain ⟨s', hr, hs'⟩ := run_of_stopped L evs s hst
  refine ⟨s', hr, hs', by simp [hs'], fun env => ?_⟩
  simp [Play, hs']

theorem stopped_is_absorbing_witness :
    Stop playingStream = some (none, stoppedStream) ∧
    ∃ s', run exampleLib [.play .ok, .pause, .frame [], .readError, .stop, .play .ok] stoppedStream
        = some s' ∧ s'.state = StateStopped ∧ s'.state ≠ StatePlaying ∧
      ∀ env, Play exampleLib env s' = (some errStopped, s') :=
  ⟨by decide, stopped_is_absorbing exampleLib _ stoppedStream (Or.inr ⟨playingStream, by decide⟩)⟩

/-- C3. On every stream reachable from `New`: `Stop` returns the error "not
playing nor paused" exactly when the state is StateInitial or StateStopped, and
then the stream (state and Duration included) is unchanged; when the state is
StatePlaying or StatePaused it returns nil, with state StateStopped and
Duration zero. -/
theorem stop_contract (L : Lib) (c : Client) (src : Option Source) (evs : List Event)
    (s : Stream) (hr : run L evs (New c src) = some s) :
    ((∃ s1, Stop s = some (some errNotPlayingNorPaused, s1)) ↔
      (s.state = StateInitial ∨ s.state = StateStopped)) ∧
    (s.state = StateInitial ∨ s.state = StateStopped →
      Stop s = some (some errNotPlayingNorPaused, s)) ∧
    (s.state = StatePlaying ∨ s.state = StatePaused →
      ∃ s1, Stop s = some (none, s1) ∧ s1.state = StateStopped ∧ s1.Duration = 0) := by
  have hinv : Inv s := inv_of_run L evs _ s (inv_New c src) hr
  have herr : s.state = StateInitial ∨ s.state = StateStopped →
      Stop s = some (some errNotPlayingNorPaused, s) := by
    rintro (h | h) <;> simp [Stop, h]
  refine ⟨⟨?_, fun h => ⟨s, herr h⟩⟩, herr, ?_⟩
  · rintro ⟨s1, h1⟩
    rcases Stop_some s s1 _ h1 with ⟨_, _, h⟩ | ⟨h, _⟩
    · exact h
    · simp at h
  · intro h
    have hne : s.state ≠ StateInitial := by rcases h with h | h <;> simp [h]
    obtain ⟨s1, hc, hs1, hw1, _⟩ := inv_cleanup s hinv hne
    refine ⟨{ s1 with Duration := 0 }, ?_, hs1, rfl⟩
    rcases h with h | h <;> simp [Stop, Wait, h, hc, hw1]

theorem stop_contract_witness :
    run exampleLib [.play .ok] (New exampleClient (some exampleSource)) = some playingStream ∧
    ∃ s1, Stop playingStream = some (none, s1) ∧ s1.state = StateStopped ∧ s1.Duration = 0 :=
  ⟨by decide,
   (stop_contract exampleLib exampleClient (some exampleSource) [.play .ok] playingStream
      (by decide)).2.2 (Or.inl (by decide))⟩

/-- C8. Cleanup is idempotent: on every stream reachable from `New` that is
Playing or Paused, `cleanup` succeeds and leaves the state StateStopped, a
second `cleanup` right after it changes nothing, and over both runs the kill,
the reap, `Source.done` and the decrement of the pending-work counter each
happen exactly once; the counter is never negative, before or after. -/
theorem cleanup_idempotent (L : Lib) (c : Client) (src : Option Source) (evs : List Event)
    (s : Stream) (hr : run L evs (New c src) = some s)
    (hs : s.state = StatePlaying ∨ s.state = StatePaused) :
    ∃ s1, cleanup s = some s1 ∧ cleanup s1 = some s1 ∧ s1.state = StateStopped ∧
      s1.kills = s.kills + 1 ∧ s1.reaps = s.reaps + 1 ∧ s1.dones = s.dones + 1 ∧
      s1.wg = s.wg - 1 ∧ 0 ≤ s.wg ∧ 0 ≤ s1.wg := by
  have hinv : Inv s := inv_of_run L evs _ s (inv_New c src) hr
  obtain ⟨hw, hc, hsrc⟩ := hinv.2.1 hs
  obtain ⟨cm, hc⟩ := Option.isSome_iff_exists.mp hc
  obtain ⟨sr, hsrc⟩ := Option.isSome_iff_exists.mp hsrc
  have hns : s.state ≠ StateStopped := by rcases hs with h | h <;> simp [h]
  refine ⟨{ s with kills := s.kills + 1, reaps := s.reaps + 1, dones := s.dones + 1,
                   state := StateStopped, wg := s.wg - 1 }, ?_, ?_, rfl, rfl, rfl, rfl, rfl, ?_, ?_⟩
  · simp [cleanup, hns, hc, hsrc, hw]
  · simp [cleanup]
  · omega
  · simp [hw]

theorem cleanup_idempotent_witness :
    run exampleLib [.play .ok] (New exampleClient (some exampleSource)) = some playingStream ∧
    (playingStream.state = StatePlaying ∨ playingStream.state = StatePaused) ∧
    ∃ s1, cleanup playingStream = some s1 ∧ cleanup s1 = some s1 ∧ s1.state = StateStopped ∧
      s1.kills = playingStream.kills + 1 ∧ s1.reaps = playingStream.reaps + 1 ∧
      s1.dones = playingStream.dones + 1 ∧
      s1.wg = playingStream.wg - 1 ∧ 0 ≤ playingStream.wg ∧ 0 ≤ s1.wg :=
  ⟨by decide, by decide,
   cleanup_idempotent exampleLib exampleClient (some exampleSource) [.play .ok] playingStream
      (by decide) (by decide)⟩

theorem wrapInt64_of_range (x : Int) (h1 : -2 ^ 63 ≤ x) (h2 : x ≤ maxInt64) : wrapInt64 x = x := by
  unfold wrapInt64
  unfold maxInt64 at h2
  norm_num at h1 h2 ⊢
  omega

theorem step_elapsed (L : Lib) (ev : Event) (s s' : Stream) (h : step L ev s = some s') :
    s'.client = s.client ∧
    (ev.isFrame = false → s'.elapsed = s.elapsed) ∧
    (s'.elapsed = s.elapsed ∨ s'.elapsed = wrapInt64 (s.elapsed + s.client.AudioInterval)) := by
  have key : s'.client = s.client ∧ s'.elapsed = s.elapsed ∨
      (ev.isFrame = true ∧ s'.client = s.client ∧
        s'.elapsed = wrapInt64 (s.elapsed + s.client.AudioInterval)) := by
    cases ev with
    | play env =>
      left
      simp only [step, Option.some.injEq] at h
      rw [← h]
      unfold Play
      repeat' split
      all_goals exact ⟨rfl, rfl⟩
    | pause =>
      left
      simp only [step, Option.some.injEq] at h
      rw [← h]
      unfold Pause
      split <;> exact ⟨rfl, rfl⟩
    | stop =>
      left
      simp only [step, Option.map_eq_some', Prod.exists, exists_eq_right] at h
      obtain ⟨e, he⟩ := h
      rcases Stop_some s s' e he with ⟨_, h1, _⟩ | ⟨_, _, s2, hc, _, h1⟩
      · rw [h1]; exact ⟨rfl, rfl⟩
      · obtain ⟨_, h2, _, h3⟩ := cleanup_some_state s s2 hc
        rw [h1]; exact ⟨h3, h2⟩
    | frame b =>
      simp only [step] at h
      split at h
      · right
        simp only [Option.some.injEq] at h
        rw [← h]; exact ⟨rfl, rfl, rfl⟩
      · left
        simp only [Option.some.injEq] at h
        rw [← h]; exact ⟨rfl, rfl⟩
    | readError =>
      left
      simp only [step] at h
      split at h
      · simp only [processReadError] at h
        rcases hc : cleanup s with _ | s1
        · simp [hc] at h
        · simp only [hc, Option.some.injEq] at h
          obtain ⟨_, h2, _, h3⟩ := cleanup_some_state s s1 hc
          rw [← h]; exact ⟨h3, h2⟩
      · simp only [Option.some.injEq] at h; rw [← h]; exact ⟨rfl, rfl⟩
    | recvPause =>
      left
      simp only [step] at h
      split at h <;> (simp only [Option.some.injEq] at h; rw [← h]; exact ⟨rfl, rfl⟩)
    | stderr t =>
      left
      simp only [step] at h
      split at h
      · simp only [Option.some.injEq] at h; rw [← h]
        obtain ⟨_, _, _, _, h5, h6, _⟩ :=
          durationLines_frame (readLines t) { s with readers := s.readers - 1 }
        exact ⟨h6, h5⟩
      · simp only [Option.some.injEq] at h; rw [← h]; exact ⟨rfl, rfl⟩
    | setVolume v => left; simp only [step, Option.some.injEq] at h; rw [← h]; exact ⟨rfl, rfl⟩
    | setOffset d => left; simp only [step, Option.some.injEq] at h; rw [← h]; exact ⟨rfl, rfl⟩
    | setCommand c => left; simp only [step, Option.some.injEq] at h; rw [← h]; exact ⟨rfl, rfl⟩
  rcases key with ⟨h1, h2⟩ | ⟨h0, h1, h2⟩
  · exact ⟨h1, fun _ => h2, Or.inl h2⟩
  · exact ⟨h1, fun hf => by simp [h0] at hf, Or.inr h2⟩

theorem run_elapsed (L : Lib) (evs : List Event) (s s' : Stream)
    (hi : 0 ≤ s.client.AudioInterval) (hlo : -2 ^ 63 ≤ s.elapsed)
    (hhi : s.elapsed + evs.length * s.client.AudioInterval ≤ maxInt64)
    (hr : run L evs s = some s') :
    s.elapsed ≤ s'.elapsed ∧ s'.elapsed ≤ s.elapsed + evs.length * s.client.AudioInterval := by
  induction evs generalizing s with
  | nil =>
    simp only [run, Option.some.injEq] at hr
    rw [← hr]; simp
  | cons ev evs ih =>
    simp only [run] at hr
    rcases h1 : step L ev s with _ | s1
    · simp [h1] at hr
    · simp only [h1] at hr
      obtain ⟨hc, _, he⟩ := step_elapsed L ev s s1 h1
      have hlen : ((ev :: evs).length : Int) = evs.length + 1 := by simp
      rw [hlen] at hhi ⊢
      have hmul : 0 ≤ (evs.length : Int) * s.client.AudioInterval :=
        mul_nonneg (Int.ofNat_nonneg _) hi
      have hs1 : s.elapsed ≤ s1.elapsed ∧ s1.elapsed ≤ s.elapsed + s.client.AudioInterval := by
        rcases he with he | he
        · rw [he]; constructor <;> omega
        · rw [he, wrapInt64_of_range _ (by omega) (by nlinarith)]
          constructor <;> omega
      have := ih s1 (by rw [hc]; exact hi) (by omega) (by rw [hc]; nlinarith) hr
      rw [hc] at this
      constructor
      · omega
      · nlinarith [this.2]

theorem step_cmd (L : Lib) (ev : Event) (s s' : Stream) (hs : s.state ≠ StateInitial)
    (h : step L ev s = some s') : s'.state ≠ StateInitial ∧ s'.cmd = s.cmd := by
  cases ev with
  | play env =>
    simp only [step, Option.some.injEq] at h
    rw [← h]
    rcases hst : s.state with _ | _ | _ | _
    · exact absurd hst hs
    all_goals simp [Play, hst]
  | pause =>
    simp only [step, Option.some.injEq] at h
    rw [← h]
    unfold Pause
    split
    · exact ⟨hs, rfl⟩
    · exact ⟨by simp, rfl⟩
  | stop =>
    simp only [step, Option.map_eq_some', Prod.exists, exists_eq_right] at h
    obtain ⟨e, he⟩ := h
    rcases Stop_some s s' e he with ⟨_, h1, _⟩ | ⟨_, _, s2, hc, _, h1⟩
    · rw [h1]; exact ⟨hs, rfl⟩
    · obtain ⟨h2, _, h3, _⟩ := cleanup_some_state s s2 hc
      rw [h1]; exact ⟨by simp [h2], h3⟩
  | frame b =>
    simp only [step] at h
    split at h <;> (simp only [Option.some.injEq] at h; rw [← h]; exact ⟨hs, rfl⟩)
  | readError =>
    simp only [step] at h
    split at h
    · simp only [processReadError] at h
      rcases hc : cleanup s with _ | s1
      · simp [hc] at h
      · simp only [hc, Option.some.injEq] at h
        obtain ⟨h2, _, h3, _⟩ := cleanup_some_state s s1 hc
        rw [← h]; exact ⟨by simp [h2], h3⟩
    · simp only [Option.some.injEq] at h; rw [← h]; exact ⟨hs, rfl⟩
  | recvPause =>
    simp only [step] at h
    split at h <;> (simp only [Option.some.injEq] at h; rw [← h]; exact ⟨hs, rfl⟩)
  | stderr t =>
    simp only [step] at h
    split at h
    · simp only [Option.some.injEq] at h; rw [← h]
      obtain ⟨_, _, h3, _⟩ :=
        durationLines_frame (readLines t) { s with readers := s.readers - 1 }
      exact ⟨by simpa [durationGoroutine, durationLines_state] using hs, h3⟩
    · simp only [Option.some.injEq] at h; rw [← h]; exact ⟨hs, rfl⟩
  | setVolume v => simp only [step, Option.some.injEq] at h; rw [← h]; exact ⟨hs, rfl⟩
  | setOffset d => simp only [step, Option.some.injEq] at h; rw [← h]; exact ⟨hs, rfl⟩
  | setCommand c => simp only [step, Option.some.injEq] at h; rw [← h]; exact ⟨hs, rfl⟩

theorem run_keeps_cmd (L : Lib) (evs : List Event) (s s' : Stream) (hs : s.state ≠ StateInitial)
    (h : run L evs s = some s') : s'.cmd = s.cmd := by
  induction evs generalizing s with
  | nil => simp only [run, Option.some.injEq] at h; rw [← h]
  | cons ev evs ih =>
    simp only [run] at h
    rcases h1 : step L ev s with _ | s1
    · simp [h1] at h
    · simp only [h1] at h
      obtain ⟨h2, h3⟩ := step_cmd L ev s s1 hs h1
      rw [ih s1 h2 h, h3]

/-- C10. Elapsed never decreases.  (1) A step other than a tick with a full
read leaves `elapsed` as it is, and every step either leaves it or replaces it
by `elapsed + interval` wrapped to 64 bits.  (2) A tick of a live emitter whose
read fills the buffer adds exactly one interval when the sum fits in an
`int64`.  (3) With a non-negative interval and without overflow, `elapsed` at
the end of any run is at least `elapsed` at its start.  (4) Play, Pause, Play:
on a playing stream, `Pause` then `Play` returns nil, the stream plays again,
`elapsed` is not reset and the command (the process handle) is the same; and
(5) once the stream has left the initial state no run replaces the command. -/
theorem elapsed_never_decreases (L : Lib) :
    (∀ ev s s', step L ev s = some s' →
      (ev.isFrame = false → s'.elapsed = s.elapsed) ∧
      (s'.elapsed = s.elapsed ∨
        s'.elapsed = wrapInt64 (s.elapsed + s.client.AudioInterval))) ∧
    (∀ b s, 0 < s.emitters → b.length = s.client.AudioFrameSize * 2 →
      -2 ^ 63 ≤ s.elapsed + s.client.AudioInterval →
      s.elapsed + s.client.AudioInterval ≤ maxInt64 →
      ∃ s', step L (.frame b) s = some s' ∧
        s'.elapsed = s.elapsed + s.client.AudioInterval) ∧
    (∀ evs s s', 0 ≤ s.client.AudioInterval → -2 ^ 63 ≤ s.elapsed →
      s.elapsed + evs.length * s.client.AudioInterval ≤ maxInt64 →
      run L evs s = some s' → Elapsed s ≤ Elapsed s') ∧
    (∀ env s, s.state = StatePlaying →
      (Play L env (Pause s).2).1 = none ∧
      (Play L env (Pause s).2).2.state = StatePlaying ∧
      Elapsed (Play L env (Pause s).2).2 = Elapsed s ∧
      (Play L env (Pause s).2).2.cmd = s.cmd) ∧
    (∀ evs s s', s.state ≠ StateInitial → run L evs s = some s' → s'.cmd = s.cmd) := by
  refine ⟨?_, ?_, ?_, ?_, ?_⟩
  · intro ev s s' h
    exact (step_elapsed L ev s s' h).2
  · intro b s he hb hlo hhi
    refine ⟨processFrame b s, by simp [step, he, hb], ?_⟩
    simp [processFrame, wrapInt64_of_range _ hlo hhi]
  · intro evs s s' hi hlo hhi hr
    exact (run_elapsed L evs s s' hi hlo hhi hr).1
  · intro env s hs
    simp [Pause, Play, hs, Elapsed]
  · intro evs s s' hs hr
    exact run_keeps_cmd L evs s s' hs hr

theorem elapsed_never_decreases_witness :
    (∃ s', step exampleLib (.frame ([1, 0, 255, 255])) playingStream = some s' ∧
        s'.elapsed = playingStream.elapsed + playingStream.client.AudioInterval) ∧
    ((Play exampleLib .ok (Pause playingStream).2).1 = none ∧
      (Play exampleLib .ok (Pause playingStream).2).2.state = StatePlaying ∧
      Elapsed (Play exampleLib .ok (Pause playingStream).2).2 = Elapsed playingStream ∧
      (Play exampleLib .ok (Pause playingStream).2).2.cmd = playingStream.cmd) :=
  ⟨(elapsed_never_decreases exampleLib).2.1 ([1, 0, 255, 255]) playingStream
      (by decide) (by decide) (by decide) (by decide),
   (elapsed_never_decreases exampleLib).2.2.2.1 .ok playingStream (by decide)⟩

/-- C4. The decoder arguments of a fresh `Play`.  For source arguments `A`
and offset `o` the list is `["-ss", seconds(o)]` when `o > 0` (nothing when
`o <= 0`), then `A`, then `-ac channels -ar sampleRate -f s16le -`; `A` sits
in it unmodified and contiguous, right after the seek arguments.  A fresh
`Play` that returns nil has stored the command `s.Command` with exactly this
list. -/
theorem play_arguments (L : Lib) (s : Stream) (src : Source) (env : PlayEnv)
    (hst : s.state = StateInitial) (hsrc : s.Source = some src)
    (hok : (Play L env s).1 = none) :
    playArgs L s.Offset src.arguments =
      (if s.Offset > 0 then ["-ss", L.formatSeconds s.Offset] else []) ++ src.arguments ++
        ["-ac", Itoa L.AudioChannels, "-ar", Itoa L.AudioSampleRate, "-f", "s16le", "-"] ∧
    ((playArgs L s.Offset src.arguments).drop (if s.Offset > 0 then 2 else 0)).take
        src.arguments.length = src.arguments ∧
    (Play L env s).2.cmd = some ⟨s.Command, playArgs L s.Offset src.arguments⟩ ∧
    (Play L env s).2.state = StatePlaying := by
  refine ⟨?_, ?_, ?_⟩
  · unfold playArgs
    split <;> simp
  · unfold playArgs
    split <;> simp
  · revert hok
    simp only [Play, hst, hsrc]
    rcases env.stdoutPipe with _ | e1
    · rcases env.stderrPipe with _ | e2
      · rcases env.sourceStart with _ | e3
        · rcases env.cmdStart with _ | e4
          · simp
          · simp
        · simp
      · simp
    · simp

theorem play_arguments_witness :
    (Play exampleLib .ok { New exampleClient (some exampleSource) with Offset := 5 * Second }).2.cmd
      = some ⟨"ffmpeg", ["-ss", "5", "-i", "song.mp3", "-ac", "1", "-ar", "48000", "-f", "s16le", "-"]⟩ :=
  (play_arguments exampleLib { New exampleClient (some exampleSource) with Offset := 5 * Second }
    exampleSource .ok (by decide) (by decide) (by decide)).2.2.1

/-! ## The duration goroutine: the library routines on the text it builds -/

theorem foldl_digits_ge (ds : List Char) (x : Nat) :
    x ≤ ds.foldl (fun x c => x * 10 + (c.toNat - 48)) x := by
  induction ds generalizing x with
  | nil => simp
  | cons c ds ih =>
    simp only [List.foldl_cons]
    exact le_trans (by omega) (ih _)

theorem leadingInt_digits (ds rest : List Char) (x : Nat) (hd : allDigits ds)
    (hr : noDigitAhead rest)
    (hb : ds.foldl (fun x c => x * 10 + (c.toNat - 48)) x ≤ 2 ^ 63) :
    leadingInt x (ds ++ rest) = some (ds.foldl (fun x c => x * 10 + (c.toNat - 48)) x, rest) := by
  induction ds generalizing x with
  | nil =>
    cases rest with
    | nil => simp [leadingInt]
    | cons c cs =>
      have : c.isDigit = false := hr c (by simp)
      simp [leadingInt, this]
  | cons c ds ih =>
    have hc : c.isDigit = true := hd c (by simp)
    simp only [List.foldl_cons] at hb ⊢
    have h1 := foldl_digits_ge ds (x * 10 + (c.toNat - 48))
    have h2 : x * 10 + (c.toNat - 48) ≤ 2 ^ 63 := le_trans h1 hb
    have h3 : ¬ x > 2 ^ 63 / 10 := by
      norm_num at h2 ⊢
      omega
    have h4 : ¬ x * 10 + (c.toNat - 48) > 2 ^ 63 := by omega
    simp only [List.cons_append, leadingInt, hc, if_true, h3, if_false, h4]
    exact ih _ (fun c hc => hd c (List.mem_cons_of_mem _ hc)) hb

theorem leadingInt_digits_cases (ds rest : List Char) (x : Nat) (hd : allDigits ds)
    (hr : noDigitAhead rest) :
    leadingInt x (ds ++ rest) = none ∨ ∃ v, leadingInt x (ds ++ rest) = some (v, rest) := by
  induction ds generalizing x with
  | nil =>
    right
    cases rest with
    | nil => exact ⟨x, by simp [leadingInt]⟩
    | cons c cs =>
      have : c.isDigit = false := hr c (by simp)
      exact ⟨x, by simp [leadingInt, this]⟩
  | cons c ds ih =>
    have hc : c.isDigit = true := hd c (by simp)
    simp only [List.cons_append, leadingInt, hc, if_true]
    split
    · exact Or.inl rfl
    · split
      · exact Or.inl rfl
      · exact ih _ (fun c hc => hd c (List.mem_cons_of_mem _ hc))

theorem span_append_stop (p : Char → Bool) (u rest : List Char) (hu : ∀ c ∈ u, p c = true)
    (hr : ∀ c ∈ rest.head?, p c = false) : (u ++ rest).span p = (u, rest) := by
  induction u with
  | nil =>
    cases rest with
    | nil => rfl
    | cons c cs =>
      have : p c = false := hr c (by simp)
      simp [List.span_eq_take_drop, this]
  | cons c u ih =>
    have hc : p c = true := hu c (by simp)
    have := ih (fun c hc => hu c (List.mem_cons_of_mem _ hc))
    rw [List.span_eq_take_drop] at this ⊢
    simp only [List.cons_append, List.takeWhile_cons, hc, if_true, List.dropWhile_cons]
    simp only [Prod.mk.injEq] at this
    simp [this.1, this.2]

theorem digit_ne (c : Char) (h : c.isDigit = true) :
    c ≠ '.' ∧ c ≠ '-' ∧ c ≠ '+' ∧ c ≠ ':' ∧ c ≠ 'h' := by
  refine ⟨?_, ?_, ?_, ?_, ?_⟩ <;> (rintro rfl; exact absurd h (by decide))

theorem parseLoop_pass (fuel : Nat) (ds u rest : List Char) (d unit : Nat)
    (hne : ds ≠ []) (hd : allDigits ds)
    (hu : u ≠ []) (huc : ∀ c ∈ u, c ≠ '.' ∧ c.isDigit = false)
    (hrest : ∀ c ∈ rest.head?, c = '.' ∨ c.isDigit = true)
    (hunit : unitMap u = some unit) (hpos : 0 < unit)
    (hd1 : d + digitsValue ds * unit ≤ 2 ^ 63) :
    parseLoop (fuel + 1) (ds ++ (u ++ rest)) d
      = parseLoop fuel rest (d + digitsValue ds * unit) := by
  obtain ⟨c, ds', rfl⟩ := List.exists_cons_of_ne_nil hne
  obtain ⟨c1, u', rfl⟩ := List.exists_cons_of_ne_nil hu
  have hc : c.isDigit = true := hd c (by simp)
  have hc1 := huc c1 (by simp)
  have hvu : digitsValue (c :: ds') * unit ≤ 2 ^ 63 := by omega
  have hv : digitsValue (c :: ds') ≤ 2 ^ 63 :=
    le_trans (Nat.le_mul_of_pos_right _ hpos) hvu
  have hl := leadingInt_digits (c :: ds') (c1 :: u' ++ rest) 0 hd
    (by intro x hx; simp at hx; rw [← hx]; exact hc1.2) hv
  have hsp := span_append_stop (fun c => !(c == '.' || c.isDigit)) (c1 :: u') rest
    (by intro x hx; have := huc x hx; simp [this.1, this.2])
    (by
      intro x hx
      rcases hrest x hx with h | h
      · simp [h]
      · simp [h])
  have hv2 : ¬ digitsValue (c :: ds') > 2 ^ 63 / unit := by
    rw [gt_iff_lt, not_lt]
    exact (Nat.le_div_iff_mul_le hpos).mpr hvu
  have hmod : (d + digitsValue (c :: ds') * unit) % 2 ^ 64 = d + digitsValue (c :: ds') * unit :=
    Nat.mod_eq_of_lt (by norm_num at hd1 ⊢; omega)
  have hd2 : ¬ d + digitsValue (c :: ds') * unit > 2 ^ 63 := by omega
  simp only [List.cons_append] at hl hsp ⊢
  simp only [parseLoop, hc, or_true, not_true_eq_false, if_false]
  rw [show leadingInt 0 (c :: (ds' ++ c1 :: (u' ++ rest)))
      = some (digitsValue (c :: ds'), c1 :: (u' ++ rest)) from hl]
  simp only [hc1.1, if_false, hsp, hunit, hv2, hmod, hd2]

theorem formatDuration_assoc (h m sec : List Char) :
    formatDuration h m sec = h ++ 'h' :: (m ++ 'm' :: (sec ++ ['s'])) := by
  simp [formatDuration]

theorem ParseDuration_start (c : Char) (cs : List Char) (hc : c.isDigit = true)
    (hlen : cs ≠ []) :
    ParseDuration (c :: cs) =
      match parseLoop (cs.length + 1) (c :: cs) 0 with
      | none => none
      | some d => if d > 2 ^ 63 - 1 then none else some (d : Int) := by
  obtain ⟨_, h1, h2, _, _⟩ := digit_ne c hc
  simp [ParseDuration, h1, h2, hlen]

theorem head_digit (ds rest : List Char) (hne : ds ≠ []) (hd : allDigits ds) :
    ∀ c ∈ (ds ++ rest).head?, c = '.' ∨ c.isDigit = true := by
  obtain ⟨c, ds', rfl⟩ := List.exists_cons_of_ne_nil hne
  intro x hx
  simp at hx
  rw [← hx]
  exact Or.inr (hd c (by simp))

theorem parseLoop_hms (k : Nat) (H M S : List Char) (hH : H ≠ []) (hM : M ≠ []) (hS : S ≠ [])
    (dH : allDigits H) (dM : allDigits M) (dS : allDigits S)
    (hr : digitsValue H * 3600000000000 + digitsValue M * 60000000000
      + digitsValue S * 1000000000 ≤ 2 ^ 63 - 1) :
    parseLoop (k + 3) (H ++ 'h' :: (M ++ 'm' :: (S ++ ['s']))) 0
      = some (digitsValue H * 3600000000000 + digitsValue M * 60000000000
          + digitsValue S * 1000000000) := by
  have p1 : parseLoop (k + 2 + 1) (H ++ 'h' :: (M ++ 'm' :: (S ++ ['s']))) 0
      = parseLoop (k + 2) (M ++ 'm' :: (S ++ ['s'])) (0 + digitsValue H * 3600000000000) :=
    parseLoop_pass (k + 2) H ['h'] (M ++ 'm' :: (S ++ ['s'])) 0 3600000000000 hH dH (by simp)
      (by simp) (head_digit M _ hM dM) (by decide) (by norm_num)
      (by norm_num at hr ⊢; omega)
  have p2 : parseLoop (k + 1 + 1) (M ++ 'm' :: (S ++ ['s'])) (0 + digitsValue H * 3600000000000)
      = parseLoop (k + 1) (S ++ ['s'])
          (0 + digitsValue H * 3600000000000 + digitsValue M * 60000000000) :=
    parseLoop_pass (k + 1) M ['m'] (S ++ ['s']) _ 60000000000 hM dM (by simp)
      (by simp) (head_digit S _ hS dS) (by decide) (by norm_num)
      (by norm_num at hr ⊢; omega)
  have p3 : parseLoop (k + 1) (S ++ ['s'])
        (0 + digitsValue H * 3600000000000 + digitsValue M * 60000000000)
      = parseLoop k []
          (0 + digitsValue H * 3600000000000 + digitsValue M * 60000000000
            + digitsValue S * 1000000000) :=
    parseLoop_pass k S ['s'] [] _ 1000000000 hS dS (by simp)
      (by simp) (by simp) (by decide) (by norm_num)
      (by norm_num at hr ⊢; omega)
  rw [show k + 3 = k + 2 + 1 from rfl, p1, show k + 2 = k + 1 + 1 from rfl, p2, p3]
  simp [parseLoop]

theorem ParseDuration_hms (H M S : List Char) (hH : H ≠ []) (hM : M ≠ []) (hS : S ≠ [])
    (dH : allDigits H) (dM : allDigits M) (dS : allDigits S)
    (hr : digitsValue H * 3600000000000 + digitsValue M * 60000000000
      + digitsValue S * 1000000000 ≤ 2 ^ 63 - 1) :
    ParseDuration (formatDuration H M S)
      = some ((digitsValue H * 3600000000000 + digitsValue M * 60000000000
          + digitsValue S * 1000000000 : Nat) : Int) := by
  have key := parseLoop_hms (H.length - 1 + M.length + S.length + 1) H M S hH hM hS dH dM dS hr
  obtain ⟨c, H', rfl⟩ := List.exists_cons_of_ne_nil hH
  rw [formatDuration_assoc]
  simp only [List.cons_append] at key ⊢
  rw [ParseDuration_start c _ (dH c (by simp)) (by simp)]
  have e1 : (H' ++ 'h' :: (M ++ 'm' :: (S ++ ['s']))).length + 1
      = (c :: H').length - 1 + M.length + S.length + 1 + 3 := by
    simp; omega
  rw [e1, key]
  have hfin : ¬ (digitsValue (c :: H') * 3600000000000 + digitsValue M * 60000000000
      + digitsValue S * 1000000000 > 2 ^ 63 - 1) := by omega
  simp only [hfin, if_false]

theorem parseLoop_hm (k : Nat) (H M : List Char) (hH : H ≠ []) (hM : M ≠ [])
    (dH : allDigits H) (dM : allDigits M)
    (hr : digitsValue H * 3600000000000 + digitsValue M * 1000000 ≤ 2 ^ 63 - 1) :
    parseLoop (k + 2) (H ++ 'h' :: (M ++ 'm' :: ([] ++ ['s']))) 0
      = some (digitsValue H * 3600000000000 + digitsValue M * 1000000) := by
  have p1 : parseLoop (k + 1 + 1) (H ++ 'h' :: (M ++ 'm' :: ([] ++ ['s']))) 0
      = parseLoop (k + 1) (M ++ 'm' :: ([] ++ ['s'])) (0 + digitsValue H * 3600000000000) :=
    parseLoop_pass (k + 1) H ['h'] (M ++ 'm' :: ([] ++ ['s'])) 0 3600000000000 hH dH (by simp)
      (by simp) (head_digit M _ hM dM) (by decide) (by norm_num)
      (by norm_num at hr ⊢; omega)
  have p2 : parseLoop (k + 1) (M ++ 'm' :: ([] ++ ['s'])) (0 + digitsValue H * 3600000000000)
      = parseLoop k []
          (0 + digitsValue H * 3600000000000 + digitsValue M * 1000000) := by
    have := parseLoop_pass k M ['m', 's'] [] (0 + digitsValue H * 3600000000000) 1000000 hM dM
      (by simp) (by simp) (by simp) (by decide) (by norm_num)
      (by norm_num at hr ⊢; omega)
    simpa using this
  rw [show k + 2 = k + 1 + 1 from rfl, p1, p2]
  simp [parseLoop]

theorem ParseDuration_hm (H M : List Char) (hH : H ≠ []) (hM : M ≠ [])
    (dH : allDigits H) (dM : allDigits M)
    (hr : digitsValue H * 3600000000000 + digitsValue M * 1000000 ≤ 2 ^ 63 - 1) :
    ParseDuration (formatDuration H M [])
      = some ((digitsValue H * 3600000000000 + digitsValue M * 1000000 : Nat) : Int) := by
  have key := parseLoop_hm (H.length - 1 + M.length + 2) H M hH hM dH dM hr
  obtain ⟨c, H', rfl⟩ := List.exists_cons_of_ne_nil hH
  rw [formatDuration_assoc]
  simp only [List.cons_append] at key ⊢
  rw [ParseDuration_start c _ (dH c (by simp)) (by simp)]
  have e1 : (H' ++ 'h' :: (M ++ 'm' :: ([] ++ ['s']))).length + 1
      = (c :: H').length - 1 + M.length + 2 + 2 := by
    simp; omega
  rw [e1, key]
  have hfin : ¬ (digitsValue (c :: H') * 3600000000000 + digitsValue M * 1000000
      > 2 ^ 63 - 1) := by omega
  simp only [hfin, if_false]

theorem ParseDuration_no_hours (M S : List Char) : ParseDuration (formatDuration [] M S) = none := by
  rw [formatDuration_assoc]
  simp only [List.nil_append, ParseDuration]
  have h1 : ¬ ('h' = '-') := by decide
  have h2 : ¬ ('h' = '+') := by decide
  simp [h1, h2, parseLoop]

theorem ParseDuration_no_minutes (H S : List Char) (hH : H ≠ []) (dH : allDigits H) :
    ParseDuration (formatDuration H [] S) = none := by
  obtain ⟨c, H', rfl⟩ := List.exists_cons_of_ne_nil hH
  have hc : c.isDigit = true := dH c (by simp)
  rw [formatDuration_assoc]
  simp only [List.cons_append, List.nil_append]
  rw [ParseDuration_start c _ hc (by simp)]
  have hl := leadingInt_digits_cases (c :: H') ('h' :: 'm' :: (S ++ ['s'])) 0 dH
    (by intro x hx; simp at hx; rw [← hx]; decide)
  simp only [List.cons_append] at hl
  simp only [parseLoop, hc, or_true, not_true_eq_false, if_false]
  rcases hl with hl | ⟨v, hl⟩
  · rw [hl]
  · rw [hl]
    have hne : ¬ ('h' = '.') := by decide
    simp only [hne, if_false]
    rw [List.span_eq_take_drop]
    have hu : unitMap (List.takeWhile (fun c => !(c == '.' || c.isDigit))
        ('h' :: 'm' :: (S ++ ['s']))) = none := by
      have t1 : (!('h' == '.' || 'h'.isDigit)) = true := by decide
      have t2 : (!('m' == '.' || 'm'.isDigit)) = true := by decide
      simp only [List.takeWhile_cons, t1, t2, if_true]
      simp [unitMap]
    simp only [hu]

theorem matchAt_digits (l H M S : List Char) (h : matchAt l = some (H, M, S)) :
    allDigits H ∧ allDigits M ∧ allDigits S := by
  unfold matchAt at h
  split at h
  · simp at h
  · rename_i r _
    simp only [List.span_eq_take_drop] at h
    split at h
    · simp at h
    · split at h
      · split at h
        · simp at h
        · split at h
          · simp only [Option.some.injEq, Prod.mk.injEq] at h
            obtain ⟨h1, h2, h3⟩ := h
            subst h1 h2 h3
            exact ⟨fun c hc => List.mem_takeWhile_imp hc, fun c hc => List.mem_takeWhile_imp hc,
              fun c hc => List.mem_takeWhile_imp hc⟩
          · simp at h
      · simp at h

theorem FindStringSubmatch_digits (l H M S : List Char)
    (h : FindStringSubmatch l = some (H, M, S)) :
    allDigits H ∧ allDigits M ∧ allDigits S := by
  induction l with
  | nil => exact matchAt_digits [] H M S h
  | cons c cs ih =>
    simp only [FindStringSubmatch] at h
    split at h
    · rename_i g hg
      simp only [Option.some.injEq] at h
      subst h
      exact matchAt_digits _ H M S hg
    · exact ih h

theorem matchAt_announcement (H M S rest : List Char)
    (dH : allDigits H) (dM : allDigits M) (dS : allDigits S) (hrest : noDigitAhead rest) :
    matchAt ("Duration: ".toList ++ H ++ ':' :: (M ++ ':' :: (S ++ rest))) = some (H, M, S) := by
  have hcolon : ∀ X : List Char, ∀ c ∈ (':' :: X).head?, Char.isDigit c = false := by
    intro X c hc
    simp at hc
    rw [← hc]
    decide
  have s1 := span_append_stop Char.isDigit H (':' :: (M ++ ':' :: (S ++ rest))) dH (hcolon _)
  have s2 := span_append_stop Char.isDigit M (':' :: (S ++ rest)) dM (hcolon _)
  have s3 := span_append_stop Char.isDigit S rest dS hrest
  have hd : dropLiteral "Duration: ".toList
      ("Duration: ".toList ++ H ++ ':' :: (M ++ ':' :: (S ++ rest)))
      = some (H ++ ':' :: (M ++ ':' :: (S ++ rest))) := by
    simp [dropLiteral]
  simp only [matchAt, hd, s1, s2, s3, if_true]

theorem matchAt_ne_D (c : Char) (cs : List Char) (h : c ≠ 'D') : matchAt (c :: cs) = none := by
  have : dropLiteral "Duration: ".toList (c :: cs) = none := by
    simp [dropLiteral, Ne.symm h]
  simp only [matchAt, this]

theorem FindStringSubmatch_skip (p l : List Char) (hp : ∀ c ∈ p, c ≠ 'D') :
    FindStringSubmatch (p ++ l) = FindStringSubmatch l := by
  induction p with
  | nil => rfl
  | cons c p ih =>
    simp only [List.cons_append, FindStringSubmatch, matchAt_ne_D c _ (hp c (by simp))]
    exact ih (fun c hc => hp c (List.mem_cons_of_mem _ hc))

theorem FindStringSubmatch_announcement (p H M S rest : List Char) (hp : ∀ c ∈ p, c ≠ 'D')
    (dH : allDigits H) (dM : allDigits M) (dS : allDigits S) (hrest : noDigitAhead rest) :
    FindStringSubmatch (p ++ ("Duration: ".toList ++ H ++ ':' :: (M ++ ':' :: (S ++ rest))))
      = some (H, M, S) := by
  rw [FindStringSubmatch_skip p _ hp]
  have h := matchAt_announcement H M S rest dH dM dS hrest
  have e : "Duration: ".toList ++ H ++ ':' :: (M ++ ':' :: (S ++ rest))
      = 'D' :: ("uration: ".toList ++ H ++ ':' :: (M ++ ':' :: (S ++ rest))) := by
    simp
  rw [e] at h ⊢
  simp only [FindStringSubmatch, h]

theorem durationLines_skip (pre rest : List (List Char)) (s : Stream)
    (hpre : ∀ l ∈ pre, FindStringSubmatch l = none) :
    durationLines (pre ++ rest) s = durationLines rest s := by
  induction pre with
  | nil => rfl
  | cons l pre ih =>
    simp only [List.cons_append, durationLines, hpre l (by simp)]
    exact ih (fun l hl => hpre l (List.mem_cons_of_mem _ hl))

theorem durationLines_no_match (ls : List (List Char)) (s : Stream)
    (h : ∀ l ∈ ls, FindStringSubmatch l = none) : durationLines ls s = s := by
  have := durationLines_skip ls [] s h
  simpa [durationLines] using this

/-! ## The duration goroutine: what it leaves in the stream -/

theorem durationLines_at_match (pre post : List (List Char)) (line H M S : List Char)
    (s : Stream) (hpre : ∀ l ∈ pre, FindStringSubmatch l = none)
    (hm : FindStringSubmatch line = some (H, M, S)) (hlock : s.durationLocked = false) :
    durationLines (pre ++ line :: post) s =
      match ParseDuration (formatDuration H M S) with
      | some d => { s with Duration := d }
      | none => { s with Duration := 0, durationLocked := true } := by
  rw [durationLines_skip pre _ s hpre]
  simp only [durationLines, hm, hlock]
  rfl

theorem hms_range (H M S : List Char)
    (hr : (digitsValue H : Int) * Hour + digitsValue M * Minute + digitsValue S * Second
      ≤ maxInt64) :
    digitsValue H * 3600000000000 + digitsValue M * 60000000000
      + digitsValue S * 1000000000 ≤ 2 ^ 63 - 1 := by
  unfold Hour Minute Second maxInt64 at hr
  norm_num at hr ⊢
  omega

/-- C5. Duration parsing.  (1) A line that consists of text without a `D`,
then `Duration: H:M:S` with H, M, S decimal digit strings, then text that does
not start with a digit, is matched by the pattern with the groups H, M, S.
(2) When the first line the pattern matches has non-empty groups H, M, S whose
total fits in an `int64` of nanoseconds, and the duration lock is free, the
goroutine sets Duration to H hours + M minutes + S seconds, changes nothing
else, and `GetDuration` then returns that value.  (3) When no line matches,
the goroutine changes nothing, so Duration stays what it was, and (4) on a
stream fresh from `New` `GetDuration` still returns zero. -/
theorem duration_parsing :
    (∀ p H M S rest : List Char, (∀ c ∈ p, c ≠ 'D') →
      allDigits H → allDigits M → allDigits S → noDigitAhead rest →
      FindStringSubmatch (p ++ ("Duration: ".toList ++ H ++ ':' :: (M ++ ':' :: (S ++ rest))))
        = some (H, M, S)) ∧
    (∀ (s : Stream) (stderr : List Char) (pre post : List (List Char)) (line H M S : List Char),
      readLines stderr = pre ++ line :: post →
      (∀ l ∈ pre, FindStringSubmatch l = none) →
      FindStringSubmatch line = some (H, M, S) →
      H ≠ [] → M ≠ [] → S ≠ [] →
      (digitsValue H : Int) * Hour + digitsValue M * Minute + digitsValue S * Second
        ≤ maxInt64 →
      s.durationLocked = false →
      durationGoroutine stderr s = { s with
        Duration := digitsValue H * Hour + digitsValue M * Minute + digitsValue S * Second } ∧
      GetDuration (durationGoroutine stderr s)
        = some (digitsValue H * Hour + digitsValue M * Minute + digitsValue S * Second)) ∧
    (∀ (s : Stream) (stderr : List Char),
      (∀ l ∈ readLines stderr, FindStringSubmatch l = none) →
      durationGoroutine stderr s = s) ∧
    (∀ (c : Client) (src : Option Source) (stderr : List Char),
      (∀ l ∈ readLines stderr, FindStringSubmatch l = none) →
      GetDuration (durationGoroutine stderr (New c src)) = some 0) := by
  refine ⟨?_, ?_, ?_, ?_⟩
  · intro p H M S rest hp dH dM dS hrest
    exact FindStringSubmatch_announcement p H M S rest hp dH dM dS hrest
  · intro s stderr pre post line H M S hlines hpre hm hH hM hS hr hlock
    obtain ⟨dH, dM, dS⟩ := FindStringSubmatch_digits line H M S hm
    have hp := ParseDuration_hms H M S hH hM hS dH dM dS (hms_range H M S hr)
    have hd : durationGoroutine stderr s = { s with
        Duration := digitsValue H * Hour + digitsValue M * Minute + digitsValue S * Second } := by
      unfold durationGoroutine
      rw [hlines, durationLines_at_match pre post line H M S s hpre hm hlock, hp]
      simp only [Hour, Minute, Second]
      push_cast
      rfl
    refine ⟨hd, ?_⟩
    rw [hd]
    simp [GetDuration, hlock]
  · intro s stderr h
    unfold durationGoroutine
    exact durationLines_no_match _ _ h
  · intro c src stderr h
    unfold durationGoroutine
    rw [durationLines_no_match _ _ h]
    rfl

theorem duration_parsing_witness :
    durationGoroutine announcement90 (New exampleClient (some exampleSource))
      = { New exampleClient (some exampleSource) with
          Duration := (digitsValue "00".toList : Int) * Hour + digitsValue "01".toList * Minute
            + digitsValue "30".toList * Second } ∧
    GetDuration (durationGoroutine announcement90 (New exampleClient (some exampleSource)))
      = some ((digitsValue "00".toList : Int) * Hour + digitsValue "01".toList * Minute
            + digitsValue "30".toList * Second) :=
  duration_parsing.2.1 (New exampleClient (some exampleSource)) announcement90 []  []
    announcement90 "00".toList "01".toList "30".toList (by decide) (by simp) (by decide)
    (by decide) (by decide) (by decide) (by decide) (by decide)

/-- C6, as the code has it.  An empty hours or minutes field is not read as
zero: when the first line the pattern matches has an empty H or an empty M
(and the duration lock is free), the text built from the three fields is not a
duration (`time.ParseDuration` fails) and Duration is zero after the
goroutine, whatever the other fields hold. -/
theorem empty_field_is_malformed (s : Stream) (stderr : List Char)
    (pre post : List (List Char)) (line H M S : List Char)
    (hlines : readLines stderr = pre ++ line :: post)
    (hpre : ∀ l ∈ pre, FindStringSubmatch l = none)
    (hm : FindStringSubmatch line = some (H, M, S))
    (hlock : s.durationLocked = false)
    (hempty : H = [] ∨ M = []) :
    ParseDuration (formatDuration H M S) = none ∧
    (durationGoroutine stderr s).Duration = 0 := by
  obtain ⟨dH, dM, dS⟩ := FindStringSubmatch_digits line H M S hm
  have hp : ParseDuration (formatDuration H M S) = none := by
    by_cases hH : H = []
    · rw [hH]; exact ParseDuration_no_hours M S
    · rcases hempty with h | h
      · exact absurd h hH
      · rw [h]; exact ParseDuration_no_minutes H S hH dH
  refine ⟨hp, ?_⟩
  unfold durationGoroutine
  rw [hlines, durationLines_at_match pre post line H M S s hpre hm hlock, hp]

theorem empty_field_is_malformed_witness :
    ParseDuration (formatDuration [] "01".toList "30".toList) = none ∧
    (durationGoroutine announcementNoHours (New exampleClient (some exampleSource))).Duration = 0 :=
  empty_field_is_malformed (New exampleClient (some exampleSource)) announcementNoHours [] []
    announcementNoHours [] "01".toList "30".toList (by decide) (by simp) (by decide)
    (by decide) (Or.inl rfl)

/-- C6 as stated fails: on the line `Duration: :01:30` the pattern matches
with an empty hours field, minutes `01` and seconds `30`, and the goroutine
leaves Duration at zero, not at the 90 seconds the claim gives. -/
theorem empty_field_counterexample :
    FindStringSubmatch announcementNoHours = some ([], "01".toList, "30".toList) ∧
    (0 : Int) * Hour + digitsValue "01".toList * Minute + digitsValue "30".toList * Second
      = 90 * Second ∧
    (durationGoroutine announcementNoHours (New exampleClient (some exampleSource))).Duration
      ≠ 90 * Second := by
  decide

/-- An empty seconds field is not read as zero either: the text is then
`H h M ms`, and `ms` is the millisecond unit, so the minutes field counts
milliseconds. -/
theorem empty_seconds_reads_milliseconds (s : Stream) (stderr : List Char)
    (pre post : List (List Char)) (line H M : List Char)
    (hlines : readLines stderr = pre ++ line :: post)
    (hpre : ∀ l ∈ pre, FindStringSubmatch l = none)
    (hm : FindStringSubmatch line = some (H, M, []))
    (hlock : s.durationLocked = false) (hH : H ≠ []) (hM : M ≠ [])
    (hr : (digitsValue H : Int) * Hour + digitsValue M * Millisecond ≤ maxInt64) :
    (durationGoroutine stderr s).Duration
      = digitsValue H * Hour + digitsValue M * Millisecond := by
  obtain ⟨dH, dM, _⟩ := FindStringSubmatch_digits line H M [] hm
  have hr2 : digitsValue H * 3600000000000 + digitsValue M * 1000000 ≤ 2 ^ 63 - 1 := by
    unfold Hour Millisecond maxInt64 at hr
    norm_num at hr ⊢
    omega
  have hp := ParseDuration_hm H M hH hM dH dM hr2
  unfold durationGoroutine
  rw [hlines, durationLines_at_match pre post line H M [] s hpre hm hlock, hp]
  simp only [Hour, Millisecond]
  push_cast
  rfl

theorem durationLines_locked (ls : List (List Char)) (s : Stream)
    (h : s.durationLocked = true) : (durationLines ls s).durationLocked = true := by
  induction ls with
  | nil => exact h
  | cons l ls ih =>
    simp only [durationLines]
    split
    · exact ih
    · simp [h]

theorem step_durationLocked (L : Lib) (ev : Event) (s s' : Stream)
    (hl : s.durationLocked = true) (h : step L ev s = some s') :
    s'.durationLocked = true := by
  cases ev with
  | play env =>
    simp only [step, Option.some.injEq] at h
    rw [← h]
    unfold Play
    repeat' split
    all_goals exact hl
  | pause =>
    simp only [step, Option.some.injEq] at h
    rw [← h]
    unfold Pause
    split <;> exact hl
  | stop =>
    simp only [step, Option.map_eq_some', Prod.exists, exists_eq_right] at h
    obtain ⟨e, he⟩ := h
    rcases Stop_some s s' e he with ⟨_, h1, _⟩ | ⟨_, _, s2, hc, _, h1⟩
    · rw [h1]; exact hl
    · rw [h1]
      exact (cleanup_durationLocked s s2 hc).trans hl
  | frame b =>
    simp only [step] at h
    split at h <;> (simp only [Option.some.injEq] at h; rw [← h]; exact hl)
  | readError =>
    simp only [step] at h
    split at h
    · simp only [processReadError] at h
      rcases hc : cleanup s with _ | s1
      · simp [hc] at h
      · simp only [hc, Option.some.injEq] at h
        rw [← h]
        exact (cleanup_durationLocked s s1 hc).trans hl
    · simp only [Option.some.injEq] at h; rw [← h]; exact hl
  | recvPause =>
    simp only [step] at h
    split at h <;> (simp only [Option.some.injEq] at h; rw [← h]; exact hl)
  | stderr t =>
    simp only [step] at h
    split at h
    · simp only [Option.some.injEq] at h; rw [← h]
      exact durationLines_locked _ _ hl
    · simp only [Option.some.injEq] at h; rw [← h]; exact hl
  | setVolume v => simp only [step, Option.some.injEq] at h; rw [← h]; exact hl
  | setOffset d => simp only [step, Option.some.injEq] at h; rw [← h]; exact hl
  | setCommand c => simp only [step, Option.some.injEq] at h; rw [← h]; exact hl

theorem run_durationLocked (L : Lib) (evs : List Event) (s s' : Stream)
    (hl : s.durationLocked = true) (h : run L evs s = some s') :
    GetDuration s' = none := by
  induction evs generalizing s with
  | nil =>
    simp only [run, Option.some.injEq] at h
    rw [← h]; simp [GetDuration, hl]
  | cons ev evs ih =>
    simp only [run] at h
    rcases h1 : step L ev s with _ | s1
    · simp [h1] at h
    · simp only [h1] at h
      exact ih s1 (step_durationLocked L ev s s1 hl h1) h

/-- C7 fails on the code.  For every matched line whose text fails to parse
(the first line the pattern matches, the duration lock free before): the
goroutine returns with Duration zero but with `durationMutex` still locked, so
`GetDuration` does not return zero, it blocks; and it blocks after every later
run of the program, since nothing unlocks the mutex. -/
theorem malformed_duration_keeps_lock (L : Lib) (s : Stream) (stderr : List Char)
    (pre post : List (List Char)) (line H M S : List Char)
    (hlines : readLines stderr = pre ++ line :: post)
    (hpre : ∀ l ∈ pre, FindStringSubmatch l = none)
    (hm : FindStringSubmatch line = some (H, M, S))
    (hlock : s.durationLocked = false)
    (hp : ParseDuration (formatDuration H M S) = none) :
    (durationGoroutine stderr s).Duration = 0 ∧
    (durationGoroutine stderr s).durationLocked = true ∧
    GetDuration (durationGoroutine stderr s) = none ∧
    ∀ evs s', run L evs (durationGoroutine stderr s) = some s' → GetDuration s' = none := by
  have hd : durationGoroutine stderr s = { s with Duration := 0, durationLocked := true } := by
    unfold durationGoroutine
    rw [hlines, durationLines_at_match pre post line H M S s hpre hm hlock, hp]
  refine ⟨by rw [hd], by rw [hd], by rw [hd]; rfl, fun evs s' hr => ?_⟩
  exact run_durationLocked L evs _ s' (by rw [hd]) hr

theorem malformed_duration_keeps_lock_witness :
    (FindStringSubmatch announcementEmpty = some ([], [], []) ∧
      ParseDuration (formatDuration [] [] []) = none ∧
      GetDuration (New exampleClient (some exampleSource)) = some 0) ∧
    (durationGoroutine announcementEmpty (New exampleClient (some exampleSource))).Duration = 0 ∧
    (durationGoroutine announcementEmpty
      (New exampleClient (some exampleSource))).durationLocked = true ∧
    GetDuration (durationGoroutine announcementEmpty (New exampleClient (some exampleSource)))
      = none :=
  ⟨by decide,
   (malformed_duration_keeps_lock exampleLib (New exampleClient (some exampleSource))
      announcementEmpty [] [] announcementEmpty [] [] [] (by decide) (by simp) (by decide)
      (by decide) (by decide)).1,
   (malformed_duration_keeps_lock exampleLib (New exampleClient (some exampleSource))
      announcementEmpty [] [] announcementEmpty [] [] [] (by decide) (by simp) (by decide)
      (by decide) (by decide)).2.1,
   (malformed_duration_keeps_lock exampleLib (New exampleClient (some exampleSource))
      announcementEmpty [] [] announcementEmpty [] [] [] (by decide) (by simp) (by decide)
      (by decide) (by decide)).2.2.1⟩

/-! ## The frame emitter: volume scaling -/

theorem bitLenAux_spec (fuel n : Nat) (h : n ≤ fuel) :
    n < 2 ^ bitLenAux fuel n ∧ (n ≠ 0 → 2 ^ (bitLenAux fuel n - 1) ≤ n) := by
  induction fuel generalizing n with
  | zero =>
    have : n = 0 := by omega
    subst this
    simp [bitLenAux]
  | succ fuel ih =>
    by_cases hn : n = 0
    · subst hn
      simp [bitLenAux]
    · simp only [bitLenAux, hn, if_false]
      obtain ⟨h1, h2⟩ := ih (n / 2) (by omega)
      constructor
      · rw [pow_succ]
        omega
      · intro _
        simp only [Nat.add_sub_cancel]
        by_cases h0 : n / 2 = 0
        · have : bitLenAux fuel (n / 2) = 0 := by
            rw [h0]
            cases fuel <;> simp [bitLenAux]
          rw [this]
          simp
          omega
        · have h3 := h2 h0
          have h4 : 0 < bitLenAux fuel (n / 2) := by
            rcases Nat.eq_zero_or_pos (bitLenAux fuel (n / 2)) with h5 | h5
            · rw [h5] at h1
              simp at h1
              exact absurd h1 h0
            · exact h5
          obtain ⟨k, hk⟩ : ∃ k, bitLenAux fuel (n / 2) = k + 1 := ⟨_, (Nat.succ_pred_eq_of_pos h4).symm⟩
          rw [hk] at h3 ⊢
          simp only [Nat.add_sub_cancel] at h3
          rw [pow_succ]
          omega

/-- The halving count of `bitLen` is enough: `bitLen n` is the number of
binary digits of `n`. -/
theorem bitLen_spec (n : Nat) :
    n < 2 ^ bitLen n ∧ (n ≠ 0 → 2 ^ (bitLen n - 1) ≤ n) :=
  bitLenAux_spec n n (le_refl n)

theorem bitLen_ge (n : Nat) (h : 2 ^ 23 ≤ n) : 24 ≤ bitLen n := by
  by_contra hlt
  have h1 : bitLen n ≤ 23 := by omega
  have h2 : 2 ^ bitLen n ≤ 2 ^ 23 := Nat.pow_le_pow_right (by norm_num) h1
  have h3 := (bitLen_spec n).1
  omega

theorem tdiv_halving (m : Int) (D : Nat) :
    Int.tdiv m D - 2 * Int.tdiv m ((2 * D : Nat) : Int) ≤ 1 ∧
    -1 ≤ Int.tdiv m D - 2 * Int.tdiv m ((2 * D : Nat) : Int) := by
  have key : ∀ a : Nat, Int.tdiv (a : Int) D - 2 * Int.tdiv (a : Int) ((2 * D : Nat) : Int) ≤ 1 ∧
      0 ≤ Int.tdiv (a : Int) D - 2 * Int.tdiv (a : Int) ((2 * D : Nat) : Int) := by
    intro a
    rw [Int.tdiv_eq_ediv (Int.ofNat_nonneg _) (Int.ofNat_nonneg _),
      Int.tdiv_eq_ediv (Int.ofNat_nonneg _) (Int.ofNat_nonneg _)]
    have h1 : ((a : Int) / ((2 * D : Nat) : Int)) = ((a / D / 2 : Nat) : Int) := by
      rw [Nat.div_div_eq_div_mul, Nat.mul_comm D 2]
      norm_cast
    have h2 : ((a : Int) / (D : Int)) = ((a / D : Nat) : Int) := by norm_cast
    rw [h1, h2]
    omega
  rcases Int.eq_nat_or_neg m with ⟨a, rfl | rfl⟩
  · have := key a
    omega
  · have := key a
    simp only [Int.neg_tdiv]
    omega

theorem tdiv_small (m : Int) (D : Nat) (h : m.natAbs < D) : Int.tdiv m D = 0 := by
  rcases Int.eq_nat_or_neg m with ⟨a, rfl | rfl⟩
  · simp only [Int.natAbs_ofNat] at h
    rw [Int.tdiv_eq_ediv (Int.ofNat_nonneg _) (Int.ofNat_nonneg _)]
    exact Int.ediv_eq_zero_of_lt (Int.ofNat_nonneg _) (by exact_mod_cast h)
  · simp only [Int.natAbs_neg, Int.natAbs_ofNat] at h
    rw [Int.neg_tdiv, Int.tdiv_eq_ediv (Int.ofNat_nonneg _) (Int.ofNat_nonneg _),
      Int.ediv_eq_zero_of_lt (Int.ofNat_nonneg _) (by exact_mod_cast h)]
    rfl

theorem truncFinite_succ (m e : Int) :
    truncFinite m (e + 1) - 2 * truncFinite m e ≤ 1 ∧
    -1 ≤ truncFinite m (e + 1) - 2 * truncFinite m e := by
  simp only [truncFinite]
  by_cases he : 0 ≤ e
  · have he1 : 0 ≤ e + 1 := by omega
    have : (e + 1).toNat = e.toNat + 1 := by omega
    simp only [he, he1, if_true, this, pow_succ]
    constructor <;> ring_nf <;> omega
  · by_cases he1 : 0 ≤ e + 1
    · have e0 : e = -1 := by omega
      subst e0
      have := tdiv_halving m 1
      simp only [Nat.cast_one, Int.tdiv_one] at this
      simpa using this
    · have hn : (-e).toNat = (-(e + 1)).toNat + 1 := by omega
      simp only [he, he1, if_false, hn]
      have := tdiv_halving m (2 ^ (-(e + 1)).toNat)
      have e2 : ((2 * 2 ^ (-(e + 1)).toNat : Nat) : Int) = 2 ^ ((-(e + 1)).toNat + 1) := by
        push_cast
        ring
      have e3 : ((2 ^ (-(e + 1)).toNat : Nat) : Int) = 2 ^ (-(e + 1)).toNat := by
        push_cast
        rfl
      rw [e2, e3] at this
      exact this

theorem truncFinite_succ_of_integer (m e : Int) (h : (Float32.finite m e).IsInteger) :
    truncFinite m (e + 1) = 2 * truncFinite m e := by
  simp only [Float32.IsInteger] at h
  simp only [truncFinite]
  by_cases he : 0 ≤ e
  · have he1 : 0 ≤ e + 1 := by omega
    have : (e + 1).toNat = e.toNat + 1 := by omega
    simp only [he, he1, if_true, this, pow_succ]
    ring
  · have hm : m % 2 ^ (-e).toNat = 0 := by
      rcases h with h | h
      · exact absurd h he
      · exact h
    obtain ⟨c, hc⟩ := Int.dvd_of_emod_eq_zero hm
    have hpos : (2 : Int) ^ (-e).toNat ≠ 0 := by positivity
    by_cases he1 : 0 ≤ e + 1
    · have e0 : e = -1 := by omega
      subst e0
      simp only [he, he1, if_false, if_true]
      have h1 : (-(-1 : Int)).toNat = 1 := by decide
      have h0 : ((-1 : Int) + 1).toNat = 0 := by decide
      rw [h1] at hc ⊢
      rw [h0, hc]
      simp only [pow_one, pow_zero, mul_one]
      rw [Int.mul_tdiv_cancel_left _ (by norm_num)]
    · have hn : (-e).toNat = (-(e + 1)).toNat + 1 := by omega
      simp only [he, he1, if_false]
      rw [hn] at hc hpos ⊢
      have hpos1 : (2 : Int) ^ (-(e + 1)).toNat ≠ 0 := by positivity
      rw [hc, Int.mul_tdiv_cancel_left _ hpos]
      rw [pow_succ, mul_assoc, Int.mul_tdiv_cancel_left _ hpos1]

theorem wrapInt16_of_range (x : Int) (h1 : -2 ^ 15 ≤ x) (h2 : x ≤ 2 ^ 15 - 1) :
    wrapInt16 x = x := by
  unfold wrapInt16
  norm_num at h1 h2 ⊢
  omega

theorem wrapInt16_bound (x : Int) : (wrapInt16 x).natAbs ≤ 2 ^ 15 := by
  unfold wrapInt16
  norm_num
  omega

theorem Float32.wellFormed_of_canonical (f : Float32) (h : f.Canonical) : f.WellFormed := by
  cases f with
  | finite m e =>
    rcases h with ⟨_, h2, h3, h4⟩ | ⟨h1, h2⟩
    · exact ⟨h2, h3, h4⟩
    · exact ⟨lt_trans h1 (by norm_num), by omega, by omega⟩
  | inf s => trivial
  | nan => trivial

theorem significandAt_zero (k : Int) : significandAt 0 k = 0 := by
  unfold significandAt roundHalfEven
  split
  · simp
  · have hp : 0 < 2 ^ k.toNat := by positivity
    simp only [Nat.zero_div, Nat.zero_mod, Nat.mul_zero]
    have h1 : ¬ (0 > 2 ^ k.toNat) := by omega
    have h2 : ¬ (0 = 2 ^ k.toNat) := by omega
    simp [h1, h2]

theorem roundFloat32_zero (E : Int) : roundFloat32 0 E = .finite 0 0 := by
  simp [roundFloat32, significandAt_zero, finish]

theorem finish_succ (neg : Bool) (q : Nat) (e m2 e2 : Int)
    (h : finish neg q (e + 1) = .finite m2 e2) :
    ∃ e1, finish neg q e = .finite m2 e1 ∧
      .finite m2 e2 = Float32.double (.finite m2 e1) ∧ (m2 = 0 ∨ e2 = e1 + 1) := by
  unfold finish at h ⊢
  by_cases hq : q = 0
  · simp only [hq, if_true, Float32.finite.injEq] at h
    obtain ⟨h1, h2⟩ := h
    subst h1 h2
    exact ⟨0, by simp [hq], by simp [Float32.double], Or.inl rfl⟩
  · simp only [hq, if_false] at h ⊢
    by_cases h24 : q = 2 ^ 24
    · simp only [h24, if_true] at h ⊢
      by_cases hov : e + 1 + 1 > 104
      · simp [hov] at h
      · simp only [hov, if_false, Float32.finite.injEq] at h
        obtain ⟨h1, h2⟩ := h
        have hov1 : ¬ e + 1 > 104 := by omega
        refine ⟨e + 1, by simp only [hov1, if_false, h1], ?_, Or.inr h2.symm⟩
        have hm : m2 ≠ 0 := by
          rw [← h1]
          cases neg <;> simp
        have hlt : e + 1 < 104 := by omega
        simp [Float32.double, hm, hlt, h2]
    · simp only [h24, if_false] at h ⊢
      by_cases hov : e + 1 > 104
      · simp [hov] at h
      · simp only [hov, if_false, Float32.finite.injEq] at h
        obtain ⟨h1, h2⟩ := h
        have hov1 : ¬ e > 104 := by omega
        refine ⟨e, by simp only [hov1, if_false, h1], ?_, Or.inr h2.symm⟩
        have hm : m2 ≠ 0 := by
          rw [← h1]
          cases neg <;> simp [hq]
        have hlt : e < 104 := by omega
        simp [Float32.double, hm, hlt, h2]

theorem finish_small (neg : Bool) (q : Nat) (hq : q < 2 ^ 100) :
    ∃ m e, finish neg q (-149) = .finite m e ∧ truncFinite m e = 0 := by
  unfold finish
  by_cases h0 : q = 0
  · exact ⟨0, 0, by simp [h0], by simp [truncFinite]⟩
  · have h24 : q ≠ 2 ^ 24 ∨ q = 2 ^ 24 := by omega
    simp only [h0, if_false]
    rcases h24 with h24 | h24
    · simp only [h24, if_false]
      have hov : ¬ ((-149 : Int) > 104) := by norm_num
      simp only [hov, if_false]
      refine ⟨_, _, rfl, ?_⟩
      have hneg : ¬ (0 : Int) ≤ -149 := by norm_num
      simp only [truncFinite, hneg, if_false]
      have h149 : ((2 : Int) ^ (-(-149 : Int)).toNat) = ((2 ^ 149 : Nat) : Int) := by
        have : (-(-149 : Int)).toNat = 149 := by decide
        rw [this]
        norm_num
      rw [h149]
      apply tdiv_small
      cases neg
      · simp only [Bool.false_eq_true, if_false, Int.natAbs_ofNat]
        exact lt_trans hq (by norm_num)
      · simp only [if_true, Int.natAbs_neg, Int.natAbs_ofNat]
        exact lt_trans hq (by norm_num)
    · simp only [h24, if_true]
      have hov : ¬ ((-149 : Int) + 1 > 104) := by norm_num
      simp only [hov, if_false]
      refine ⟨_, _, rfl, ?_⟩
      have hneg : ¬ (0 : Int) ≤ -149 + 1 := by norm_num
      simp only [truncFinite, hneg, if_false]
      have h148 : ((2 : Int) ^ (-(-149 + 1 : Int)).toNat) = ((2 ^ 148 : Nat) : Int) := by
        have : (-(-149 + 1 : Int)).toNat = 148 := by decide
        rw [this]
        norm_num
      rw [h148]
      apply tdiv_small
      cases neg
      · simp only [Bool.false_eq_true, if_false, Int.natAbs_ofNat]
        norm_num
      · simp only [if_true, Int.natAbs_neg, Int.natAbs_ofNat]
        norm_num

/-- The two products that differ by a factor of two.  When the rounding of
`p * 2 ^ (E + 1)` is finite, so is the rounding of `p * 2 ^ E`; the integer
parts differ by at most one after doubling and agree when the smaller number
is an integer; and the larger rounding is exactly twice the smaller unless the
product is below the normal range. -/
theorem roundFloat32_pair (p E m2 e2 : Int) (hE : -149 ≤ E) (ha : p.natAbs < 2 ^ 40)
    (h2 : roundFloat32 p (E + 1) = .finite m2 e2) :
    ∃ m1 e1, roundFloat32 p E = .finite m1 e1 ∧
      truncFinite m2 e2 - 2 * truncFinite m1 e1 ≤ 1 ∧
      -1 ≤ truncFinite m2 e2 - 2 * truncFinite m1 e1 ∧
      ((Float32.finite m1 e1).IsInteger → truncFinite m2 e2 = 2 * truncFinite m1 e1) ∧
      (-149 ≤ E + (bitLen p.natAbs : Int) - 24 →
        .finite m2 e2 = Float32.double (.finite m1 e1)) := by
  by_cases hN : -149 ≤ E + (bitLen p.natAbs : Int) - 24
  · have hN1 : -149 ≤ E + 1 + (bitLen p.natAbs : Int) - 24 := by omega
    have r1 : roundFloat32 p E = finish (decide (p < 0))
        (significandAt p.natAbs ((bitLen p.natAbs : Int) - 24))
        (E + (bitLen p.natAbs : Int) - 24) := by
      simp only [roundFloat32, max_eq_left hN]
      congr 2
      ring
    have r2 : roundFloat32 p (E + 1) = finish (decide (p < 0))
        (significandAt p.natAbs ((bitLen p.natAbs : Int) - 24))
        (E + (bitLen p.natAbs : Int) - 24 + 1) := by
      simp only [roundFloat32, max_eq_left hN1]
      congr 1
      · congr 1
        ring
      · ring
    rw [r2] at h2
    obtain ⟨e1, hf, hd, hz⟩ := finish_succ _ _ _ m2 e2 h2
    refine ⟨m2, e1, by rw [r1, hf], ?_, ?_, ?_, fun _ => hd⟩
    · rcases hz with hz | hz
      · subst hz
        simp [truncFinite]
      · rw [hz]; exact (truncFinite_succ m2 e1).1
    · rcases hz with hz | hz
      · subst hz
        simp [truncFinite]
      · rw [hz]; exact (truncFinite_succ m2 e1).2
    · intro hi
      rcases hz with hz | hz
      · subst hz
        simp [truncFinite]
      · rw [hz]; exact truncFinite_succ_of_integer m2 e1 hi
  · have hlt : E + (bitLen p.natAbs : Int) - 24 < -149 := by omega
    have hb : (0 : Int) ≤ (bitLen p.natAbs : Int) := Int.ofNat_nonneg _
    have hmax : max (E + (bitLen p.natAbs : Int) - 24) (-149) = -149 :=
      max_eq_right (by omega)
    have hmax1 : max (E + 1 + (bitLen p.natAbs : Int) - 24) (-149) = -149 :=
      max_eq_right (by omega)
    have hk : (-149 : Int) - E ≤ 0 := by omega
    have hk1 : (-149 : Int) - (E + 1) ≤ 0 := by omega
    have r1 : roundFloat32 p E = finish (decide (p < 0))
        (p.natAbs * 2 ^ (-(-149 - E)).toNat) (-149) := by
      simp only [roundFloat32, hmax, significandAt, hk, if_true]
    have r2 : roundFloat32 p (E + 1) = finish (decide (p < 0))
        (p.natAbs * 2 ^ (-(-149 - (E + 1))).toNat) (-149) := by
      simp only [roundFloat32, hmax1, significandAt, hk1, if_true]
    have hj : (-(-149 - E)).toNat ≤ 24 := by omega
    have hj1 : (-(-149 - (E + 1))).toNat ≤ 25 := by omega
    have q1 : p.natAbs * 2 ^ (-(-149 - E)).toNat < 2 ^ 100 := by
      have : 2 ^ (-(-149 - E)).toNat ≤ 2 ^ 24 := Nat.pow_le_pow_right (by norm_num) hj
      calc p.natAbs * 2 ^ (-(-149 - E)).toNat
          ≤ p.natAbs * 2 ^ 24 := Nat.mul_le_mul_left _ this
        _ < 2 ^ 40 * 2 ^ 24 := Nat.mul_lt_mul_of_pos_right ha (by norm_num)
        _ < 2 ^ 100 := by norm_num
    have q2 : p.natAbs * 2 ^ (-(-149 - (E + 1))).toNat < 2 ^ 100 := by
      have : 2 ^ (-(-149 - (E + 1))).toNat ≤ 2 ^ 25 := Nat.pow_le_pow_right (by norm_num) hj1
      calc p.natAbs * 2 ^ (-(-149 - (E + 1))).toNat
          ≤ p.natAbs * 2 ^ 25 := Nat.mul_le_mul_left _ this
        _ < 2 ^ 40 * 2 ^ 25 := Nat.mul_lt_mul_of_pos_right ha (by norm_num)
        _ < 2 ^ 100 := by norm_num
    obtain ⟨m1, e1, hf1, ht1⟩ := finish_small (decide (p < 0)) _ q1
    obtain ⟨m2', e2', hf2, ht2⟩ := finish_small (decide (p < 0)) _ q2
    rw [r2, hf2] at h2
    simp only [Float32.finite.injEq] at h2
    obtain ⟨hm, he⟩ := h2
    subst hm he
    refine ⟨m1, e1, by rw [r1, hf1], ?_, ?_, ?_, fun h => absurd h hN⟩
    · rw [ht1, ht2]; norm_num
    · rw [ht1, ht2]; norm_num
    · intro _
      rw [ht1, ht2]; norm_num

theorem roundFloat32_pair_samples (p E : Int) (hE : -149 ≤ E) (ha : p.natAbs < 2 ^ 40)
    (hfit : (roundFloat32 p (E + 1)).FitsInt16) :
    (roundFloat32 p (E + 1)).toInt16 - 2 * (roundFloat32 p E).toInt16 ≤ 1 ∧
    -1 ≤ (roundFloat32 p (E + 1)).toInt16 - 2 * (roundFloat32 p E).toInt16 ∧
    ((roundFloat32 p E).IsInteger →
      (roundFloat32 p (E + 1)).toInt16 = 2 * (roundFloat32 p E).toInt16) ∧
    (-149 ≤ E + (bitLen p.natAbs : Int) - 24 →
      roundFloat32 p (E + 1) = Float32.double (roundFloat32 p E)) := by
  rcases h2 : roundFloat32 p (E + 1) with ⟨m2, e2⟩ | s | _
  · rw [h2] at hfit
    obtain ⟨hlo, hhi⟩ := hfit
    obtain ⟨m1, e1, h1, t1, t2, t3, t4⟩ := roundFloat32_pair p E m2 e2 hE ha h2
    rw [h1]
    have w2 : wrapInt16 (truncFinite m2 e2) = truncFinite m2 e2 :=
      wrapInt16_of_range _ hlo hhi
    have w1 : wrapInt16 (truncFinite m1 e1) = truncFinite m1 e1 := by
      norm_num at hlo hhi
      exact wrapInt16_of_range _ (by norm_num; omega) (by norm_num; omega)
    simp only [Float32.toInt16, w1, w2]
    exact ⟨t1, t2, t3, t4⟩
  · rw [h2] at hfit
    exact absurd hfit (by simp [Float32.FitsInt16])
  · rw [h2] at hfit
    exact absurd hfit (by simp [Float32.FitsInt16])

/-- C9, as the code has it.  Volume scaling is linear up to the fraction
that the conversion to `int16` discards.  For every `float32` volume `v` and
every input sample such that the product at volume `2v` is finite with an
integer part that fits in 16 bits: (1) if `v` is zero or a normal number, the
`float32` product at volume `2v` is exactly twice the product at volume `v`;
(2) the sample emitted at `2v` differs from twice the sample emitted at `v` by
at most one; (3) the two are equal when the product at `v` has no fractional
part. -/
theorem volume_doubling (v : Float32) (b0 b1 : Nat) (hv : v.Canonical)
    (hfit : (Float32.mul (Float32.double v)
      (Float32.ofInt16 (wrapInt16 (leUint16 b0 b1)))).FitsInt16) :
    (v.ZeroOrNormal →
      Float32.mul (Float32.double v) (Float32.ofInt16 (wrapInt16 (leUint16 b0 b1)))
        = Float32.double (Float32.mul v (Float32.ofInt16 (wrapInt16 (leUint16 b0 b1))))) ∧
    scaleSample (Float32.double v) b0 b1 - 2 * scaleSample v b0 b1 ≤ 1 ∧
    -1 ≤ scaleSample (Float32.double v) b0 b1 - 2 * scaleSample v b0 b1 ∧
    ((Float32.mul v (Float32.ofInt16 (wrapInt16 (leUint16 b0 b1)))).IsInteger →
      scaleSample (Float32.double v) b0 b1 = 2 * scaleSample v b0 b1) := by
  unfold scaleSample
  have hx := wrapInt16_bound (leUint16 b0 b1)
  generalize wrapInt16 (leUint16 b0 b1) = x at hx hfit ⊢
  rcases v with ⟨m, e⟩ | s | _
  · by_cases hm : m = 0
    · subst hm
      simp [Float32.double, Float32.mul, Float32.ofInt16, roundFloat32_zero, Float32.toInt16,
        truncFinite, wrapInt16]
    · have he : -149 ≤ e ∧ e ≤ 104 ∧ m.natAbs < 2 ^ 24 := by
        rcases hv with ⟨_, h2, h3, h4⟩ | ⟨h1, h2⟩
        · exact ⟨h3, h4, h2⟩
        · exact ⟨by omega, by omega, lt_trans h1 (by norm_num)⟩
      by_cases h104 : e < 104
      · simp only [Float32.double, hm, h104, if_true, if_false, Float32.mul, Float32.ofInt16,
          add_zero] at hfit ⊢
        have ha : (m * x).natAbs < 2 ^ 40 := by
          rw [Int.natAbs_mul]
          calc m.natAbs * x.natAbs ≤ m.natAbs * 2 ^ 15 := Nat.mul_le_mul_left _ hx
            _ < 2 ^ 24 * 2 ^ 15 := Nat.mul_lt_mul_of_pos_right he.2.2 (by norm_num)
            _ < 2 ^ 40 := by norm_num
        have c := roundFloat32_pair_samples (m * x) e he.1 ha hfit
        refine ⟨fun hz => ?_, c.1, c.2.1, c.2.2.1⟩
        by_cases hx0 : x = 0
        · subst hx0
          simp [roundFloat32_zero, Float32.double]
        · apply c.2.2.2
          have hm23 : 2 ^ 23 ≤ m.natAbs := by
            rcases hz with hz | hz
            · exact absurd hz hm
            · exact hz
          have hx1 : 1 ≤ x.natAbs := Int.natAbs_pos.mpr hx0
          have hp : 2 ^ 23 ≤ (m * x).natAbs := by
            rw [Int.natAbs_mul]
            calc 2 ^ 23 = 2 ^ 23 * 1 := by norm_num
              _ ≤ m.natAbs * x.natAbs := Nat.mul_le_mul hm23 hx1
          have hb := bitLen_ge _ hp
          omega
      · exfalso
        have hbig : ¬ 2 * m.natAbs < 2 ^ 24 := by
          rcases hv with ⟨h1, _⟩ | ⟨_, h2⟩
          · omega
          · omega
        simp only [Float32.double, hm, h104, hbig, if_false, Float32.mul, Float32.ofInt16]
          at hfit
        split at hfit <;> exact absurd hfit (by simp [Float32.FitsInt16])
  · exfalso
    simp only [Float32.double, Float32.mul, Float32.ofInt16] at hfit
    split at hfit <;> exact absurd hfit (by simp [Float32.FitsInt16])
  · exfalso
    simp [Float32.double, Float32.mul, Float32.FitsInt16] at hfit

theorem volume_doubling_witness :
    (Float32.mul (Float32.double volumeOneAndHalf) (Float32.ofInt16 (wrapInt16 (leUint16 2 0)))
        = Float32.double
          (Float32.mul volumeOneAndHalf (Float32.ofInt16 (wrapInt16 (leUint16 2 0))))) ∧
    (scaleSample (Float32.double volumeOneAndHalf) 5 0 - 2 * scaleSample volumeOneAndHalf 5 0 ≤ 1 ∧
      -1 ≤ scaleSample (Float32.double volumeOneAndHalf) 5 0
        - 2 * scaleSample volumeOneAndHalf 5 0) ∧
    scaleSample (Float32.double volumeOneAndHalf) 2 0 = 2 * scaleSample volumeOneAndHalf 2 0 :=
  ⟨(volume_doubling volumeOneAndHalf 2 0 (by decide) (by decide)).1 (by decide),
   ⟨(volume_doubling volumeOneAndHalf 5 0 (by decide) (by decide)).2.1,
    (volume_doubling volumeOneAndHalf 5 0 (by decide) (by decide)).2.2.1⟩,
   (volume_doubling volumeOneAndHalf 2 0 (by decide) (by decide)).2.2.2 (by decide)⟩

/-- C9 as stated fails.  At volume 0.5 the input sample 1 is emitted as 0 (the
product 0.5 loses its fraction), at volume 1.0 it is emitted as 1, and 1 is not
twice 0, with or without reduction to 16 bits. -/
theorem volume_doubling_counterexample :
    volumeHalf.Canonical ∧
    Float32.double volumeHalf = .finite 8388608 (-23) ∧
    scaleSample volumeHalf 1 0 = 0 ∧
    scaleSample (Float32.double volumeHalf) 1 0 = 1 ∧
    scaleSample (Float32.double volumeHalf) 1 0 ≠ 2 * scaleSample volumeHalf 1 0 ∧
    scaleSample (Float32.double volumeHalf) 1 0 ≠ wrapInt16 (2 * scaleSample volumeHalf 1 0) := by
  decide

/-- Beyond the finite range the products are not twice each other: at volume
`2 ^ 127` the doubled volume is an infinity, whose product with the sample 0
is NaN, while twice the product at `2 ^ 127` is zero. -/
theorem volume_doubling_overflow :
    Float32.double (.finite 8388608 104) = .inf false ∧
    Float32.mul (Float32.double (.finite 8388608 104)) (Float32.ofInt16 0) = .nan ∧
    Float32.double (Float32.mul (.finite 8388608 104) (Float32.ofInt16 0)) = .finite 0 0 := by
  decide

end Gumbleffmpeg
